import Mathlib

/-!
Verification of the todiff core against its natural-language specification.

The development shallowly embeds the Rust sources:
  * `src/compute_changes.rs` — similarity oracle, semantic delta classifier,
    recurrence folding and the two-snapshot changeset builder;
  * `src/stable_marriage.rs` — the extended Gale–Shapley matching engine.

Machine integers are embedded as `Nat`/`Int`; Rust panics (`expect`, integer
division by zero, out-of-range `Vec` indexing, `Option::unwrap`) are embedded
as the `.error ()` case of `Except Unit`; `chrono::NaiveDate` is embedded as a
calendar date record with explicit proleptic-Gregorian day arithmetic.
-/

namespace Todiff

/-! ## Calendar dates (embedding of `chrono::NaiveDate` / `todo_txt::Date`) -/

/-- A calendar date, embedding `chrono::NaiveDate` (proleptic Gregorian). -/
structure TaskDate where
  year : Int
  month : Nat
  day : Nat
deriving DecidableEq, Repr

/-- Gregorian leap-year test. -/
def isLeap (y : Int) : Bool :=
  y % 4 == 0 && (y % 100 != 0 || y % 400 == 0)

/-- Number of days of month `m` (1-based) in year `y`. -/
def daysInMonth (y : Int) (m : Nat) : Nat :=
  if m = 2 then (if isLeap y then 29 else 28)
  else if m = 4 ∨ m = 6 ∨ m = 9 ∨ m = 11 then 30
  else 31

/-- Days of year `y` that precede month `m` (1-based). -/
def daysBeforeMonth (y : Int) (m : Nat) : Nat :=
  (List.range (m - 1)).foldl (fun acc k => acc + daysInMonth y (k + 1)) 0

/-- Day number of a date: `0001-01-01` is day 1 (rata die). -/
def toRataDie (d : TaskDate) : Int :=
  let y := d.year - 1
  365 * y + Int.fdiv y 4 - Int.fdiv y 100 + Int.fdiv y 400
    + (daysBeforeMonth d.year d.month : Int) + (d.day : Int)

/-- Inverse of `toRataDie` (standard civil-from-days computation). -/
def fromRataDie (n : Int) : TaskDate :=
  let z := n + 305
  let era := Int.fdiv z 146097
  let doe := (z - era * 146097).toNat
  let yoe := (doe - doe / 1460 + doe / 36524 - doe / 146096) / 365
  let y := (yoe : Int) + era * 400
  let doy := doe - (365 * yoe + yoe / 4 - yoe / 100)
  let mp := (5 * doy + 2) / 153
  let dd := doy - (153 * mp + 2) / 5 + 1
  let m := if mp < 10 then mp + 3 else mp - 9
  { year := if m ≤ 2 then y + 1 else y, month := m, day := dd }

/-- Embedding of `date + chrono::Duration::days(n)`. -/
def addDays (d : TaskDate) (n : Int) : TaskDate :=
  fromRataDie (toRataDie d + n)

/-- Embedding of `a.signed_duration_since(b)`, in whole days. -/
def signedDurationSince (a b : TaskDate) : Int :=
  toRataDie a - toRataDie b

/-- Embedding of `chrono::Datelike::month0` (0-based month). -/
def month0 (d : TaskDate) : Nat := d.month - 1

/-- Embedding of `chrono::Datelike::with_month0`: replace the month (0-based),
returning `none` when the resulting calendar date would be invalid. -/
def withMonth0 (d : TaskDate) (m0 : Nat) : Option TaskDate :=
  if 12 ≤ m0 then none
  else if d.day ≤ daysInMonth d.year (m0 + 1) then some { d with month := m0 + 1 }
  else none

/-- Embedding of `chrono::Datelike::with_year`: replace the year, returning
`none` when the resulting calendar date would be invalid (Feb 29). -/
def withYear (d : TaskDate) (y : Int) : Option TaskDate :=
  if d.day ≤ daysInMonth y d.month then some { d with year := y } else none

/-! ## Levenshtein distance (embedding of `strsim::levenshtein`) -/

/-- Helper for `levenshtein`: distance from `x :: xs`, given the distance
function `f` from `xs`. -/
def levAux (x : Char) (xs : List Char) (f : List Char → Nat) : List Char → Nat
  | [] => xs.length + 1
  | y :: ys =>
    if x = y then f ys
    else 1 + min (f ys) (min (levAux x xs f ys) (f (y :: ys)))

/-- Unit-cost Levenshtein edit distance on character sequences, the
mathematical function computed by `strsim::levenshtein`. -/
def levenshtein : List Char → List Char → Nat
  | [], ys => ys.length
  | x :: xs, ys => levAux x xs (levenshtein xs) ys

/-- UTF-8 byte width of one scalar value (Rust `char::len_utf8`). -/
def charBytes (c : Char) : Nat :=
  if c.toNat ≤ 0x7F then 1
  else if c.toNat ≤ 0x7FF then 2
  else if c.toNat ≤ 0xFFFF then 3
  else 4

/-- UTF-8 byte length of a string (Rust `String::len`). -/
def byteLen (s : List Char) : Nat := (s.map charBytes).sum

/-! ## Tasks (embedding of `todo_txt::Task`) -/

/-- Embedding of `todo_txt::Task`.  `subject` is the character sequence of the
subject string; `priority` is the `u8` rank (0–25 meaning 'A'–'Z', anything
else meaning no priority); `tags` embeds the `BTreeMap<String, String>` as the
association list of its entries in map order. -/
structure Task where
  subject : List Char
  priority : Nat
  createDate : Option TaskDate
  finishDate : Option TaskDate
  finished : Bool
  thresholdDate : Option TaskDate
  dueDate : Option TaskDate
  tags : List (List Char × List Char)
deriving DecidableEq, Repr

/-- Embedding of `BTreeMap::get` on the embedded tag list. -/
def tagsGet (tags : List (List Char × List Char)) (key : List Char) : Option (List Char) :=
  (tags.find? (fun p => p.1 == key)).map (fun p => p.2)

/-- The `"rec"` tag key. -/
def recKey : List Char := ['r', 'e', 'c']

/-! ## The delta vocabulary (embedding of `enum Changes`) -/

/-- Embedding of `compute_changes::Changes`.  Durations are embedded as whole
days (`Int`), which is exact: every `chrono::Duration` constructed by the
program is a whole number of days. -/
inductive Changes
  | Created
  | Copied
  | RecurredStrict
  | RecurredFrom (d : TaskDate)
  | FinishedAt (d : TaskDate)
  | PostponedStrictBy (days : Int)
  | Finished (after : Bool)
  | Priority (before after : Option Char)
  | FinishDate (before after : Option TaskDate)
  | CreateDate (before after : Option TaskDate)
  | Subject (before after : List Char)
  | DueDate (before after : Option TaskDate)
  | ThresholdDate (before after : Option TaskDate)
  | Tags (removed added : List (List Char × List Char))
deriving DecidableEq, Repr

/-! ## Helpers of the classifier -/

/-- Embedding of `compute_changes::postpone_days`. -/
def postponeDays (f t : Task) : Option Int :=
  match f.dueDate, t.dueDate with
  | some fromDue, some toDue =>
    if f.thresholdDate = none ∧ t.thresholdDate = none then
      some (signedDurationSince toDue fromDue)
    else
      match f.thresholdDate, t.thresholdDate with
      | some fromThresh, some toThresh =>
        if signedDurationSince toDue fromDue = signedDurationSince toThresh fromThresh then
          some (signedDurationSince toDue fromDue)
        else none
      | _, _ => none
  | _, _ => none

/-- Numeric value of a digit sequence, most significant first. -/
def digitsToNat (l : List Char) : Nat :=
  l.foldl (fun acc c => acc * 10 + (c.toNat - '0'.toNat)) 0

/-- Embedding of `str::parse::<u16>`: an optional `+` sign followed by at
least one digit, with the value at most `u16::MAX`. -/
def parseU16 (s : List Char) : Option Nat :=
  let digits := match s with
    | '+' :: rest => rest
    | _ => s
  if digits ≠ [] ∧ digits.all Char.isDigit ∧ digitsToNat digits ≤ 65535 then
    some (digitsToNat digits)
  else none

/-- Embedding of `compute_changes::add_recspec_to_date`.  `.error ()` embeds
the `expect` panics E006/E007/E008; `.ok none` is the Rust `None`. -/
def addRecspecToDate (date : TaskDate) (recspec : List Char) : Except Unit (Option TaskDate) :=
  match parseU16 recspec.dropLast with
  | some n =>
    match recspec.getLast? with
    | some 'd' => .ok (some (addDays date (n : Int)))
    | some 'w' => .ok (some (addDays date (7 * (n : Int))))
    | some 'm' =>
      match withMonth0 date ((month0 date + n) % 12) with
      | none => .error ()
      | some d1 =>
        match withYear d1 (date.year + (((month0 date + n) / 12 : Nat) : Int)) with
        | none => .error ()
        | some d2 => .ok (some d2)
    | some 'y' =>
      match withYear date (date.year + (n : Int)) with
      | none => .error ()
      | some d2 => .ok (some d2)
    | _ => .ok none
  | none => .ok none

/-- Embedding of `compute_changes::remove_common` (also used on tag lists):
iterate over a snapshot of the first list, and for every element still present
in the second list remove one occurrence from both. -/
def removeCommonGo [DecidableEq α] : List α → List α × List α → List α × List α
  | [], s => s
  | x :: rest, (a, b) =>
    if x ∈ b then removeCommonGo rest (a.erase x, b.erase x)
    else removeCommonGo rest (a, b)

/-- Embedding of `remove_common(&mut a, &mut b)`, returning the final contents
of the two vectors. -/
def removeCommon [DecidableEq α] (a b : List α) : List α × List α :=
  removeCommonGo a (a, b)

/-- Priority rank to letter, as in the `Priority` arm of `changes_between`. -/
def priorityToChar (p : Nat) : Option Char :=
  if p < 26 then some (Char.ofNat (65 + p)) else none

/-! ## The semantic delta classifier (embedding of `changes_between`) -/

/-- Recurrence-detection prefix of `changes_between`: the edits pushed before
the `Copied` marker, together with the `done_recurred` flag.  `.error ()`
embeds a panic inside `add_recspec_to_date`. -/
def recurrencePart (f t : Task) (isFirst : Bool) : Except Unit (List Changes × Bool) :=
  if isFirst = false ∧ tagsGet f.tags recKey = tagsGet t.tags recKey then
    match tagsGet f.tags recKey, postponeDays f t, f.dueDate, t.dueDate with
    | some r, some _, some fromDue, some toDue =>
      if r.head? = some '+' then do
        let res ← addRecspecToDate fromDue r.tail
        if res = some toDue then pure ([.RecurredStrict], true) else pure ([], false)
      else
        match t.createDate with
        | some toCreate => do
          let res ← addRecspecToDate toCreate r
          if res = some toDue then pure ([.RecurredFrom toCreate], true) else pure ([], false)
        | none => pure ([], false)
    | _, _, _, _ => pure ([], false)
  else pure ([], false)

/-- The `Copied` push of `changes_between`. -/
def copiedBlock (isFirst : Bool) (doneRecurred : Bool) : List Changes :=
  if doneRecurred = false ∧ isFirst = false then [Changes.Copied] else []

/-- The `FinishedAt` push of `changes_between` (the guard includes
`to.finish_date.is_some()`, realized by the inner match). -/
def finishedAtBlock (f t : Task) : List Changes :=
  if f.finished = false ∧ t.finished = true ∧ f.finishDate = none then
    match t.finishDate with
    | some fd => [Changes.FinishedAt fd]
    | none => []
  else []

/-- The `done_finished_at` flag: true exactly when the `FinishedAt` push
fired. -/
def doneFinishedAt (f t : Task) : Bool :=
  decide (f.finished = false ∧ t.finished = true ∧ f.finishDate = none) && t.finishDate.isSome

/-- The `PostponedStrictBy` push of `changes_between`. -/
def postponedBlock (f t : Task) (doneRecurred : Bool) : List Changes :=
  if doneRecurred = false ∧ f.dueDate ≠ t.dueDate then
    match postponeDays f t with
    | some d => [Changes.PostponedStrictBy d]
    | none => []
  else []

/-- The `done_postponed_strict` flag: true exactly when the
`PostponedStrictBy` push fired. -/
def donePostponedStrict (f t : Task) (doneRecurred : Bool) : Bool :=
  (!doneRecurred) && decide (f.dueDate ≠ t.dueDate) && (postponeDays f t).isSome

/-- The pushes of `changes_between` that follow recurrence detection, given
the edits `res0` pushed so far and the `done_recurred` flag: each append is
one Rust `push` with its guard, in source order. -/
def changesBetweenRest (f t : Task) (isFirst : Bool) (res0 : List Changes)
    (dr : Bool) : List Changes :=
  res0 ++ copiedBlock isFirst dr ++ finishedAtBlock f t ++ postponedBlock f t dr
    ++ (if dr = false ∧ donePostponedStrict f t dr = false ∧
          f.thresholdDate ≠ t.thresholdDate then
          [Changes.ThresholdDate f.thresholdDate t.thresholdDate]
        else [])
    ++ (if dr = false ∧ donePostponedStrict f t dr = false ∧ f.dueDate ≠ t.dueDate then
          [Changes.DueDate f.dueDate t.dueDate]
        else [])
    ++ (if doneFinishedAt f t = false ∧ f.finished ≠ t.finished then
          [Changes.Finished t.finished]
        else [])
    ++ (if doneFinishedAt f t = false ∧ f.finishDate ≠ t.finishDate then
          [Changes.FinishDate f.finishDate t.finishDate]
        else [])
    ++ (if f.priority ≠ t.priority then
          if ¬(doneFinishedAt f t = true ∧ priorityToChar t.priority = none) then
            [Changes.Priority (priorityToChar f.priority) (priorityToChar t.priority)]
          else []
        else [])
    ++ (if dr = false ∧ f.createDate ≠ t.createDate then
          [Changes.CreateDate f.createDate t.createDate]
        else [])
    ++ (if f.tags ≠ t.tags then
          [Changes.Tags (removeCommon f.tags t.tags).1 (removeCommon f.tags t.tags).2]
        else [])
    ++ (if f.subject ≠ t.subject then
          [Changes.Subject f.subject t.subject]
        else [])

/-- Embedding of `compute_changes::changes_between`: recurrence detection
followed by the remaining pushes. -/
def changesBetween (f t : Task) (isFirst : Bool) : Except Unit (List Changes) := do
  let (res0, doneRecurred) ← recurrencePart f t isFirst
  pure (changesBetweenRest f t isFirst res0 doneRecurred)

/-! ## The stable matching engine (embedding of `stable_marriage.rs`) -/

/-- Embedding of `struct Man`: a proposer with his remaining preference list.
The Rust code stores the list most-preferred-last and pops from the back; we
store it most-preferred-first and pop from the front. -/
structure ManS (M : Type) where
  data : M
  prefs : List Nat
deriving DecidableEq, Repr

/-- Embedding of `struct Woman`: a target with her current engagement. -/
structure WomanS (M W : Type) where
  data : W
  currentMatch : Option (ManS M)
  currentIsPerfect : Bool
deriving DecidableEq, Repr

/-- Embedding of the two `Matcher` trait objects used by `stable_marriage`:
`mAdm`/`mCmp`/`mPerfect` are the men-side matcher's `is_admissible`,
`cmp_3way` and `is_perfect_match`; `wAdm`/`wCmp` are the women-side
matcher's `is_admissible` and `cmp_3way`. -/
structure Matchers (M W : Type) where
  mAdm : M → W → Bool
  mCmp : M → W → W → Ordering
  wAdm : W → M → Bool
  wCmp : W → M → M → Ordering
  mPerfect : M → W → Bool

/-- Embedding of `Woman::prefers_to_current`. -/
def prefersToCurrent (mt : Matchers M W) (w : WomanS M W) (item : M) : Bool :=
  if w.currentIsPerfect || !(mt.wAdm w.data item) then false
  else
    match w.currentMatch with
    | some c => mt.wCmp w.data c.data item == Ordering.gt
    | none => true

/-- Insert into a sorted list, stable for ties. -/
def insertSorted (le : α → α → Bool) (x : α) : List α → List α
  | [] => [x]
  | y :: ys => if le x y then x :: y :: ys else y :: insertSorted le x ys

/-- Stable insertion sort by a boolean comparison.  It embeds the Rust sorts:
for the total, antisymmetric comparators used during matching the sorted
result is unique, so the choice of algorithm is irrelevant (and for
comparators with ties `sort_unstable_by` leaves the order of tied elements
unspecified anyway). -/
def sortByBool (le : α → α → Bool) (l : List α) : List α :=
  l.foldr (insertSorted le) []

/-- Embedding of the default `Matcher::compute_preference_list`: targets that
would currently accept the proposer and are admissible to him, sorted by
`cmp_3way` with ties broken by index.  The Rust code sorts with the comparison
reversed and pops from the back of the vector; we keep ascending order (front
of the list = most preferred). -/
def computePreferenceList (mt : Matchers M W) (item : M) (targets : List (WomanS M W)) :
    List Nat :=
  let admissibles :=
    ((targets.enum.filter (fun p => prefersToCurrent mt p.2 item)).filter
      (fun p => mt.mAdm item p.2.data))
  let sorted := sortByBool
    (fun a b => ((mt.mCmp item a.2.data b.2.data).then (compare a.1 b.1)) ≠ Ordering.gt)
    admissibles
  sorted.map (fun p => p.1)

/-- Remaining preferences of the man a woman currently holds, if any. -/
def matchContrib (w : WomanS M W) : Nat :=
  match w.currentMatch with
  | some c => c.prefs.length
  | none => 0

/-- Sum of the lengths of the preference lists of all currently engaged men. -/
def womenPrefsSum (women : List (WomanS M W)) : Nat :=
  (women.map matchContrib).sum

/-- Termination measure of the proposal loop: the held man's remaining
preferences plus those of all engaged men. -/
def heldMeasure (women : List (WomanS M W)) (man : ManS M) : Nat :=
  man.prefs.length + womenPrefsSum women

theorem womenPrefsSum_set (women : List (WomanS M W)) (i : Nat) (w' : WomanS M W)
    (w : WomanS M W) (h : women[i]? = some w) :
    womenPrefsSum (women.set i w') + matchContrib w =
      womenPrefsSum women + matchContrib w' := by
  induction women generalizing i with
  | nil => simp at h
  | cons a l ih =>
    cases i with
    | zero =>
      simp at h
      subst h
      simp [womenPrefsSum]
      omega
    | succ n =>
      simp at h
      have := ih n h
      simp [womenPrefsSum, List.set] at *
      omega

/-- One fuel-indexed run of the inner proposal loop of `stable_marriage` (the
`while let Some(i) = man.prefs.pop()` loop): returns `some` of the updated
women together with `some man` when the held man exhausted his list (he is
pushed onto `no_longer_engageables`), or `none` when the loop did not finish
within `fuel` iterations.  An out-of-range index — impossible for preference
lists produced by `compute_preference_list` — is skipped. -/
def proposeLoopFuel (mt : Matchers M W) :
    Nat → List (WomanS M W) → ManS M → Option (List (WomanS M W) × Option (ManS M))
  | 0, _, _ => none
  | fuel + 1, women, man =>
    match man.prefs with
    | [] => some (women, some man)
    | i :: rest =>
      let man' : ManS M := { data := man.data, prefs := rest }
      match women[i]? with
      | none => proposeLoopFuel mt fuel women man'
      | some w =>
        if prefersToCurrent mt w man'.data then
          let women' := women.set i { w with currentMatch := some man' }
          match w.currentMatch with
          | some rejected => proposeLoopFuel mt fuel women' rejected
          | none => some (women', none)
        else proposeLoopFuel mt fuel women man'

/-- The inner proposal loop.  The Rust loop carries no fuel; it is run here
with fuel `heldMeasure + 1`, which the termination theorem
`propose_loop_terminates` proves sufficient (every iteration pops one entry
off the held man's preference list, so the measure strictly decreases), and
past which the result is fuel-independent.  The fallback value of `getD` is
therefore never used. -/
def proposeLoop (mt : Matchers M W) (women : List (WomanS M W)) (man : ManS M) :
    List (WomanS M W) × Option (ManS M) :=
  (proposeLoopFuel mt (heldMeasure women man + 1) women man).getD (women, some man)

theorem proposeLoopFuel_irrel (mt : Matchers M W) :
    ∀ fuel1 fuel2 (women : List (WomanS M W)) (man : ManS M),
      heldMeasure women man < fuel1 → heldMeasure women man < fuel2 →
      proposeLoopFuel mt fuel1 women man = proposeLoopFuel mt fuel2 women man := by
  intro fuel1
  induction fuel1 with
  | zero =>
    intro fuel2 women man h1 _
    omega
  | succ f ih =>
    intro fuel2 women man h1 h2
    rcases fuel2 with _ | g
    · omega
    · rcases hp : man.prefs with _ | ⟨i, rest⟩
      · simp [proposeLoopFuel, hp]
      · have hm : heldMeasure women man = rest.length + 1 + womenPrefsSum women := by
          simp [heldMeasure, hp]
        simp only [proposeLoopFuel, hp]
        rcases hw : women[i]? with _ | w
        · apply ih
          · simp only [heldMeasure] at *
            omega
          · simp only [heldMeasure] at *
            omega
        · by_cases hpref : prefersToCurrent mt w man.data = true
          · simp only [hpref, if_true]
            rcases hcm : w.currentMatch with _ | rejected
            · rfl
            · have hset := womenPrefsSum_set women i
                { data := w.data, currentMatch := some { data := man.data, prefs := rest },
                  currentIsPerfect := w.currentIsPerfect } w hw
              simp only [matchContrib, hcm] at hset
              apply ih
              · simp only [heldMeasure] at *
                omega
              · simp only [heldMeasure] at *
                omega
          · simp only [hpref, if_false]
            apply ih
            · simp only [heldMeasure] at *
              omega
            · simp only [heldMeasure] at *
              omega

theorem proposeLoopFuel_isSome (mt : Matchers M W) :
    ∀ fuel (women : List (WomanS M W)) (man : ManS M),
      heldMeasure women man < fuel →
      (proposeLoopFuel mt fuel women man).isSome := by
  intro fuel
  induction fuel with
  | zero =>
    intro women man h1
    omega
  | succ f ih =>
    intro women man h1
    rcases hp : man.prefs with _ | ⟨i, rest⟩
    · simp [proposeLoopFuel, hp]
    · have hm : heldMeasure women man = rest.length + 1 + womenPrefsSum women := by
        simp [heldMeasure, hp]
      simp only [proposeLoopFuel, hp]
      rcases hw : women[i]? with _ | w
      · apply ih
        simp only [heldMeasure] at *
        omega
      · by_cases hpref : prefersToCurrent mt w man.data = true
        · simp only [hpref, if_true]
          rcases hcm : w.currentMatch with _ | rejected
          · rfl
          · have hset := womenPrefsSum_set women i
              { data := w.data, currentMatch := some { data := man.data, prefs := rest },
                currentIsPerfect := w.currentIsPerfect } w hw
            simp only [matchContrib, hcm] at hset
            apply ih
            simp only [heldMeasure] at *
            omega
        · simp only [hpref, if_false]
          apply ih
          simp only [heldMeasure] at *
          omega

theorem proposeLoopFuel_computes (mt : Matchers M W) (women : List (WomanS M W))
    (man : ManS M) (fuel : Nat) (h : heldMeasure women man < fuel) :
    proposeLoopFuel mt fuel women man = some (proposeLoop mt women man) := by
  have hs := proposeLoopFuel_isSome mt (heldMeasure women man + 1) women man (by omega)
  obtain ⟨r, hr⟩ := Option.isSome_iff_exists.mp hs
  unfold proposeLoop
  rw [proposeLoopFuel_irrel mt fuel (heldMeasure women man + 1) women man h (by omega), hr]
  rfl

/-- C7 (confirmed): the proposal loop of `stable_marriage` terminates on
every input within `heldMeasure` iterations — each iteration pops one entry
off the currently held proposer's preference list, strictly decreasing the
sum of the lengths of all live preference lists — and the result is
independent of any fuel at least that large, so the algorithm is a total
function of its input. -/
theorem propose_loop_terminates (mt : Matchers M W) (women : List (WomanS M W))
    (man : ManS M) (fuel : Nat) (h : heldMeasure women man < fuel) :
    proposeLoopFuel mt fuel women man = some (proposeLoop mt women man) :=
  proposeLoopFuel_computes mt women man fuel h

/-- A small concrete matcher pair over `Nat` items, used in witnesses. -/
def plainMatchers : Matchers Nat Nat :=
  { mAdm := fun _ _ => true
    mCmp := fun _ l r => compare l r
    wAdm := fun _ _ => true
    wCmp := fun _ a b => compare a b
    mPerfect := fun _ _ => false }

/-- Witness for `propose_loop_terminates` on a one-proposer instance. -/
theorem propose_loop_terminates_witness :
    heldMeasure [WomanS.mk 0 none false] (ManS.mk 0 [0]) < 2 ∧
    proposeLoopFuel plainMatchers 2 [WomanS.mk 0 none false] (ManS.mk 0 [0]) =
      some (proposeLoop plainMatchers [WomanS.mk 0 none false] (ManS.mk 0 [0])) :=
  ⟨by decide,
   propose_loop_terminates plainMatchers [WomanS.mk 0 none false]
     (ManS.mk 0 [0]) 2 (by decide)⟩

/-- Embedding of the body of the `for item in men` loop of `stable_marriage`:
bind the man to the first unengaged perfect match if one exists, otherwise
compute his preference list and run the proposal loop. -/
def processMan (mt : Matchers M W) (women : List (WomanS M W)) (mdata : M) :
    List (WomanS M W) × Option (ManS M) :=
  match women.enum.find? (fun p => p.2.currentMatch.isNone && mt.mPerfect mdata p.2.data) with
  | some (i, w) =>
    (women.set i { w with currentIsPerfect := true, currentMatch := some ⟨mdata, []⟩ }, none)
  | none =>
    proposeLoop mt women { data := mdata, prefs := computePreferenceList mt mdata women }

/-- The `for item in men` loop, accumulating `no_longer_engageables`. -/
def smGo (mt : Matchers M W) : List M → List (WomanS M W) → List (ManS M) →
    List (WomanS M W) × List (ManS M)
  | [], women, unmatched => (women, unmatched)
  | m :: ms, women, unmatched =>
    let (women', out) := processMan mt women m
    smGo mt ms women'
      (match out with
       | some man => unmatched ++ [man]
       | none => unmatched)

/-- Final internal state of `stable_marriage`: the women (with their current
engagements) and the exhausted, unmatched men. -/
def stableMarriageState (mt : Matchers M W) (men : List M) (women : List W) :
    List (WomanS M W) × List (ManS M) :=
  smGo mt men (women.map (fun w => ⟨w, none, false⟩)) []

/-- Embedding of `stable_marriage::stable_marriage`: matchings from the
women's perspective, and unmatched men. -/
def stableMarriage (mt : Matchers M W) (men : List M) (women : List W) :
    List (W × Option M) × List M :=
  let (ws, un) := stableMarriageState mt men women
  (ws.map (fun w => (w.data, w.currentMatch.map (fun m => m.data))), un.map (fun m => m.data))

/-- Rust `Option::cmp` on `Option<usize>` (`None` sorts first). -/
def optCompare : Option Nat → Option Nat → Ordering
  | none, none => .eq
  | none, some _ => .lt
  | some _, none => .gt
  | some a, some b => compare a b

/-- Modelled from the spec: `compute_changes.rs` calls a two-argument
`stable_marriage(from_preferences_matrix, to_preferences_matrix)` whose
definition is not among the sources (the `stable_marriage.rs` present is the
later trait-based generalization).  Following §4.2 of the spec and the
`IndexMatcher` wrapper in the test module of `stable_marriage.rs`, the matrix
form is the trait-based engine instantiated with index matchers: a side is
admissible iff it occurs in the other side's preference row, and `cmp_3way`
compares positions within the row. -/
def indexMatchers (menPrefs womenPrefs : List (List Nat)) : Matchers Nat Nat :=
  { mAdm := fun i j => (menPrefs.getD i []).contains j
    mCmp := fun i l r =>
      optCompare ((menPrefs.getD i []).findIdx? (fun x => x == l))
        ((menPrefs.getD i []).findIdx? (fun x => x == r))
    wAdm := fun j i => (womenPrefs.getD j []).contains i
    wCmp := fun j a b =>
      optCompare ((womenPrefs.getD j []).findIdx? (fun x => x == a))
        ((womenPrefs.getD j []).findIdx? (fun x => x == b))
    mPerfect := fun _ _ => false }

/-- Men-side view of the women-side matching, as built by
`stable_marriage_from_preference_lists` in the `stable_marriage.rs` tests. -/
def buildMenMatching (nMen : Nat) (ws : List (WomanS Nat Nat)) : List (Option Nat) :=
  ws.enum.foldl
    (fun acc p =>
      match p.2.currentMatch with
      | some man => acc.set man.data (some p.1)
      | none => acc)
    (List.replicate nMen none)

/-- Modelled from the spec: the two-argument `stable_marriage` over preference
matrices (see `indexMatchers`).  Returns the matching from the men's (callers'
`from`) perspective and from the women's perspective. -/
def stableMarriagePrefs (menPrefs womenPrefs : List (List Nat)) :
    List (Option Nat) × List (Option Nat) :=
  let mt := indexMatchers menPrefs womenPrefs
  let (ws, _) := stableMarriageState mt (List.range menPrefs.length)
    (List.range womenPrefs.length)
  (buildMenMatching menPrefs.length ws, ws.map (fun w => w.currentMatch.map (fun m => m.data)))

/-! ## The similarity oracle (embedding of `is_task_admissible` etc.) -/

/-- Embedding of `compute_changes::is_task_admissible`.  The Rust expression
`distance * 100 / other.subject.len() < allowed_divergence` divides by the
byte length of `other`'s subject; `.error ()` embeds the division-by-zero
panic when that subject is empty. -/
def isTaskAdmissible (f other : Task) (allowedDivergence : Nat) : Except Unit Bool :=
  let distance := levenshtein other.subject f.subject
  let len := byteLen other.subject
  if len = 0 then .error ()
  else .ok (decide (distance * 100 / len < allowedDivergence))

/-- Embedding of `compute_changes::cmp_tasks_3way`. -/
def cmpTasks3way (f l r : Task) : Ordering :=
  let leftLev := levenshtein l.subject f.subject
  let rightLev := levenshtein r.subject f.subject
  if leftLev ≠ rightLev then compare leftLev rightLev else .eq

/-- Monadic filter in left-to-right order (a Rust iterator `filter` whose
predicate may panic). -/
def filterME (p : α → Except Unit Bool) : List α → Except Unit (List α)
  | [] => pure []
  | x :: xs => do
    let b ← p x
    let rest ← filterME p xs
    if b then pure (x :: rest) else pure rest

/-- Embedding of `compute_changes::preferred_task_ids`.  `sort_unstable_by` is
embedded as a merge sort; the comparator can return `Equal` for distinct
elements, in which case the Rust unstable sort leaves their order unspecified
— the facts proved below about concrete runs only use tie-free inputs. -/
def preferredTaskIds (t : Task) (tasks : List Task) (allowedDivergence : Nat) :
    Except Unit (List Nat) := do
  let admissibles ← filterME (fun p => isTaskAdmissible t p.2 allowedDivergence) tasks.enum
  let sorted := sortByBool (fun a b => cmpTasks3way t a.2 b.2 ≠ Ordering.gt) admissibles
  pure (sorted.map (fun p => p.1))

/-! ## Deltas and the changeset builder (embedding of `compute_changeset`) -/

/-- Embedding of `compute_changes::TaskDelta`. -/
inductive TaskDelta (T : Type)
  | Deleted
  | Changed (t : T)
  | Recurred (ts : List T)
deriving DecidableEq, Repr

/-- Embedding of `compute_changes::ChangedTask`. -/
structure ChangedTask (T : Type) where
  orig : Task
  delta : TaskDelta T
deriving DecidableEq, Repr

/-- Embedding of `Vec` indexing plus `Option::take().unwrap()`: `.error ()`
embeds both the out-of-range panic and the `unwrap` panic. -/
def takeAt (l : List (Option α)) (i : Nat) : Except Unit (α × List (Option α)) :=
  match l[i]? with
  | some (some x) => .ok (x, l.set i none)
  | _ => .error ()

/-- Extraction stage of `compute_changeset` (lines building `matches`,
`deleted_tasks` and the leftover `to` pool): walk the matching, take the
matched tasks out of the two `Vec<Option<Task>>`s, and wrap each pair in a
`Changed` delta, or `Recurred` when the original carries a `rec` tag.
Returns (matches, deleted `from` leftovers, leftover `to` tasks). -/
def extractMatches (matching : List (Option Nat)) (fromL toL : List Task) :
    Except Unit (List (ChangedTask Task) × List Task × List Task) := do
  let pairs := matching.enum.filterMap (fun p => p.2.map (fun j => (p.1, j)))
  let st ← pairs.foldlM
    (fun (st : List (Option Task) × List (Option Task) × List (ChangedTask Task)) ij => do
      let (fo, to2, acc) := st
      let (ft, fo') ← takeAt fo ij.1
      let (tt, to') ← takeAt to2 ij.2
      let delta :=
        if tagsGet ft.tags recKey ≠ none then TaskDelta.Recurred [tt]
        else TaskDelta.Changed tt
      pure (fo', to', acc ++ [⟨ft, delta⟩]))
    (fromL.map some, toL.map some, [])
  pure (st.2.2, st.1.filterMap id, st.2.1.filterMap id)

/-- Rust `Iterator::min_by`: the last of the minimal elements. -/
def minByLast (cmp : α → α → Ordering) : List α → Option α
  | [] => none
  | x :: xs => some (xs.foldl (fun acc y => if cmp acc y = Ordering.lt then acc else y) x)

/-- Push a task onto the `Recurred` chain stored at index `i` (the
`delta.push(x)` of the recurrence-folding stage).  The fallback branches are
unreachable: the index always designates a `Recurred` entry. -/
def pushToChain (ms : List (ChangedTask Task)) (i : Nat) (x : Task) :
    List (ChangedTask Task) :=
  match ms[i]? with
  | some e =>
    match e.delta with
    | .Recurred ts => ms.set i ⟨e.orig, .Recurred (ts ++ [x])⟩
    | _ => ms
  | none => ms

/-- Body of the recurrence-folding loop of `compute_changeset`: the leftover
`to` task `x` is appended to the closest admissible `Recurred` chain, or
reported as a new task. -/
def detectStep (allowedDivergence : Nat) (st : List (ChangedTask Task) × List Task)
    (x : Task) : Except Unit (List (ChangedTask Task) × List Task) := do
  let (ms, news) := st
  let candidates := ms.enum.filterMap (fun p =>
    match p.2.delta with
    | .Recurred _ => some (p.1, p.2.orig)
    | _ => none)
  let adm ← filterME (fun c => isTaskAdmissible c.2 x allowedDivergence) candidates
  match minByLast (fun a b => cmpTasks3way x a.2 b.2) adm with
  | some best => pure (pushToChain ms best.1 x, news)
  | none => pure (ms, news ++ [x])

/-- Recurrence-folding stage of `compute_changeset` (the `new_tasks` filter). -/
def detectRecurred (allowedDivergence : Nat) (matched : List (ChangedTask Task))
    (toRem : List Task) : Except Unit (List (ChangedTask Task) × List Task) :=
  toRem.foldlM (detectStep allowedDivergence) (matched, [])

/-- Classification stage of `compute_changeset`: replace each matched task by
the edit list computed by `changes_between`; a `Recurred` chain of length one
collapses to `Changed`. -/
def classifyDelta (orig : Task) : TaskDelta Task → Except Unit (TaskDelta (List Changes))
  | .Deleted => pure .Deleted
  | .Changed t => do
    let c ← changesBetween orig t true
    pure (.Changed c)
  | .Recurred ts => do
    let recurred ← ts.enum.mapM (fun p => changesBetween orig p.2 (p.1 == 0))
    match recurred with
    | [single] => pure (.Changed single)
    | _ => pure (.Recurred recurred)

/-- The matching and folding stages of `compute_changeset`, stopping just
before classification: returns (folded matches, deleted originals, new
tasks). -/
def computeChangesetFolded (fromL toL : List Task) (allowedDivergence : Nat) :
    Except Unit (List (ChangedTask Task) × List Task × List Task) := do
  let (fromC, toC) := removeCommon fromL toL
  let fromPrefs ← fromC.mapM (fun t => preferredTaskIds t toC allowedDivergence)
  let toPrefs ← toC.mapM (fun t => preferredTaskIds t fromC allowedDivergence)
  let (matching, _) := stableMarriagePrefs fromPrefs toPrefs
  let (matches0, deleted, toRem) ← extractMatches matching fromC toC
  let (ms, news) ← detectRecurred allowedDivergence matches0 toRem
  pure (ms, deleted, news)

/-- Embedding of `compute_changes::compute_changeset`. -/
def computeChangeset (fromL toL : List Task) (allowedDivergence : Nat) :
    Except Unit (List Task × List (ChangedTask (List Changes))) := do
  let (ms, deleted, news) ← computeChangesetFolded fromL toL allowedDivergence
  let classified ← ms.mapM (fun e => do
    let d ← classifyDelta e.orig e.delta
    pure (ChangedTask.mk e.orig d))
  pure (news, classified ++ deleted.map (fun t => ⟨t, .Deleted⟩))

/-! ## Concrete tasks used as test vectors -/

deriving instance DecidableEq for Except

/-- A task with empty subject and all optional fields absent. -/
def blankTask : Task :=
  { subject := [], priority := 26, createDate := none, finishDate := none,
    finished := false, thresholdDate := none, dueDate := none, tags := [] }

/-- Task with subject `"ab"`. -/
def taskAb : Task := { blankTask with subject := ['a', 'b'] }

/-- Task with subject `"aa"`. -/
def taskAa : Task := { blankTask with subject := ['a', 'a'] }

/-- Task with subject `"a"`. -/
def taskSingleA : Task := { blankTask with subject := ['a'] }

/-- Task `due:2018-01-30 rec:1m`. -/
def taskJan30 : Task :=
  { blankTask with dueDate := some ⟨2018, 1, 30⟩, tags := [(recKey, ['1', 'm'])] }

/-- Task `2018-01-30 due:2018-02-28 rec:1m`. -/
def taskFeb28 : Task :=
  { blankTask with
    dueDate := some ⟨2018, 2, 28⟩
    createDate := some ⟨2018, 1, 30⟩
    tags := [(recKey, ['1', 'm'])] }

/-- A recurring task `foo due:2018-04-10 rec:1d`. -/
def taskRecOrig : Task :=
  { blankTask with
    subject := ['f', 'o', 'o']
    dueDate := some ⟨2018, 4, 10⟩
    tags := [(recKey, ['1', 'd'])] }

/-- Its completed successor `x 2018-04-08 foo due:2018-04-12 rec:1d`. -/
def taskRecDone : Task :=
  { blankTask with
    subject := ['f', 'o', 'o']
    finished := true
    finishDate := some ⟨2018, 4, 8⟩
    dueDate := some ⟨2018, 4, 12⟩
    tags := [(recKey, ['1', 'd'])] }

/-- A further successor `fooo due:2018-04-11 rec:1d`, with an earlier due date. -/
def taskRecNext : Task :=
  { blankTask with
    subject := ['f', 'o', 'o', 'o']
    dueDate := some ⟨2018, 4, 11⟩
    tags := [(recKey, ['1', 'd'])] }

/-! ## C1 — the admissibility test -/

/-- C1 (corrected): with a non-empty normalizing subject, `is_task_admissible`
accepts exactly when `distance * 100 / len < allowed_divergence` with integer
division, i.e. exactly when `distance * 100 < allowed_divergence * len` — a
strict inequality, not the `≤` of the claim.  Consequently at
`allowed_divergence = 0` no pair at all is admissible (not even equal
subjects), and at `allowed_divergence = 100` a pair is admissible iff the
distance is strictly below the subject length (not everything). -/
theorem is_task_admissible_boundary (f o : Task) (d : Nat) (h : 0 < byteLen o.subject) :
    isTaskAdmissible f o d =
      .ok (decide (levenshtein o.subject f.subject * 100 < d * byteLen o.subject)) ∧
    (d = 0 → isTaskAdmissible f o d = .ok false) ∧
    (d = 100 → (isTaskAdmissible f o d = .ok true ↔
      levenshtein o.subject f.subject < byteLen o.subject)) := by
  have hne : ¬ (byteLen o.subject = 0) := by omega
  have hiff : ∀ d' : Nat,
      (levenshtein o.subject f.subject * 100 / byteLen o.subject < d') ↔
      (levenshtein o.subject f.subject * 100 < d' * byteLen o.subject) :=
    fun d' => Nat.div_lt_iff_lt_mul h
  refine ⟨?_, ?_, ?_⟩
  · simp only [isTaskAdmissible, if_neg hne]
    congr 1
    exact decide_eq_decide.mpr (hiff d)
  · intro hd
    subst hd
    simp [isTaskAdmissible, if_neg hne]
  · intro hd
    subst hd
    simp only [isTaskAdmissible, if_neg hne, Except.ok.injEq, decide_eq_true_eq]
    rw [hiff 100]
    constructor
    · intro h1
      nlinarith [h]
    · intro h1
      nlinarith [h]

/-- Witness for `is_task_admissible_boundary` at subjects `"ab"`, `"aa"`,
divergence 50. -/
theorem is_task_admissible_boundary_witness :
    0 < byteLen taskAa.subject ∧
    (isTaskAdmissible taskAb taskAa 50 =
      .ok (decide (levenshtein taskAa.subject taskAb.subject * 100 <
        50 * byteLen taskAa.subject)) ∧
    (50 = 0 → isTaskAdmissible taskAb taskAa 50 = .ok false) ∧
    (50 = 100 → (isTaskAdmissible taskAb taskAa 50 = .ok true ↔
      levenshtein taskAa.subject taskAb.subject < byteLen taskAa.subject))) :=
  ⟨by decide, is_task_admissible_boundary taskAb taskAa 50 (by decide)⟩

/-- Counterexample to C1 as stated: for subjects `"ab"` and `"aa"` at
divergence 50 the distance is 1 and both subjects have byte length 2, so
`distance * 100 ≤ allowed_divergence * len` holds (100 ≤ 100) under either
reading of "reference", yet the code rejects the pair (100 / 2 = 50 is not
`< 50`). -/
theorem is_task_admissible_cex :
    ¬ ((isTaskAdmissible taskAb taskAa 50 = .ok true) ↔
      (levenshtein taskAa.subject taskAb.subject * 100 ≤ 50 * byteLen taskAa.subject)) := by
  decide

/-! ## C3 — month arithmetic panics instead of clamping -/

/-- C3 (code bug): adding one month to 2018-01-30 panics through
`expect("Internal error E006")` (`with_month0` yields `None` because
Feb 30 does not exist) instead of clamping to 2018-02-28, and
`changes_between` on a task pair exercising this recurrence check panics
as well — it is not total. -/
theorem add_recspec_month_panics :
    addRecspecToDate ⟨2018, 1, 30⟩ ['1', 'm'] = .error () ∧
    changesBetween taskJan30 taskFeb28 false = .error () := by
  decide

/-! ## C9 — division by zero on an empty subject -/

/-- C9 (confirmed): the admissibility test divides by the byte length of the
normalizing subject with no guard, so comparing against a task with an empty
subject panics, and `compute_changeset` on lists containing such a task
fails. -/
theorem empty_subject_panics :
    isTaskAdmissible taskSingleA blankTask 50 = .error () ∧
    computeChangeset [taskSingleA] [blankTask] 50 = .error () := by
  constructor
  · decide
  · rfl

/-! ## C6 — at most one completion edit and one postponement edit -/

/-- Membership in the completion family of edits. -/
def isCompletionFam : Changes → Bool
  | .FinishedAt _ => true
  | .Finished _ => true
  | _ => false

/-- Membership in the postponement family of edits. -/
def isPostponeFam : Changes → Bool
  | .PostponedStrictBy _ => true
  | .DueDate _ _ => true
  | _ => false

theorem filter_if_append (p : Changes → Bool) (c : Prop) [Decidable c]
    (l : List Changes) (x : Changes) (hx : p x = false) :
    List.filter p (if c then l ++ [x] else l) = List.filter p l := by
  split <;> simp [List.filter_append, hx]

theorem recurrencePart_shape (f t : Task) (b : Bool) (l : List Changes) (dr : Bool)
    (h : recurrencePart f t b = .ok (l, dr)) :
    l = [] ∨ l = [Changes.RecurredStrict] ∨ ∃ d, l = [Changes.RecurredFrom d] := by
  unfold recurrencePart at h
  simp only [Bind.bind, Except.bind, Pure.pure, Except.pure] at h
  repeat' split at h
  all_goals try simp_all
  all_goals aesop

theorem completion_copied (b dr : Bool) :
    List.filter isCompletionFam (copiedBlock b dr) = [] := by
  unfold copiedBlock
  split <;> rfl

theorem postpone_copied (b dr : Bool) :
    List.filter isPostponeFam (copiedBlock b dr) = [] := by
  unfold copiedBlock
  split <;> rfl

theorem completion_finishedAt (f t : Task) :
    (List.filter isCompletionFam (finishedAtBlock f t)).length =
      if doneFinishedAt f t = true then 1 else 0 := by
  unfold finishedAtBlock doneFinishedAt
  by_cases hcond : f.finished = false ∧ t.finished = true ∧ f.finishDate = none
  · rcases ht : t.finishDate with _ | fd <;> simp [hcond, ht, isCompletionFam]
  · simp [hcond]

theorem postpone_finishedAt (f t : Task) :
    List.filter isPostponeFam (finishedAtBlock f t) = [] := by
  unfold finishedAtBlock
  repeat' split
  all_goals rfl

theorem completion_postponed (f t : Task) (dr : Bool) :
    List.filter isCompletionFam (postponedBlock f t dr) = [] := by
  unfold postponedBlock
  repeat' split
  all_goals rfl

theorem postpone_postponed (f t : Task) (dr : Bool) :
    (List.filter isPostponeFam (postponedBlock f t dr)).length =
      if donePostponedStrict f t dr = true then 1 else 0 := by
  unfold postponedBlock donePostponedStrict
  by_cases hcond : dr = false ∧ f.dueDate ≠ t.dueDate
  · rcases hpd : postponeDays f t with _ | d <;>
      simp [hcond, hcond.1, hcond.2, hpd, isPostponeFam]
  · rw [if_neg hcond]
    rcases hdr : dr with _ | _
    · have : f.dueDate = t.dueDate := by
        subst hdr
        by_contra hne
        exact hcond ⟨rfl, hne⟩
      simp [this]
    · simp [hdr]

theorem filter_singleton_if (p : Changes → Bool) (c : Prop) [Decidable c] (x : Changes) :
    (List.filter p (if c then [x] else [])).length = if c ∧ p x = true then 1 else 0 := by
  by_cases hcnd : c
  · by_cases hx : p x = true <;> simp [hcnd, hx, List.filter]
  · simp [hcnd]

theorem filter_singleton_if2 (p : Changes → Bool) (c1 c2 : Prop) [Decidable c1]
    [Decidable c2] (x : Changes) :
    (List.filter p (if c1 then if c2 then [x] else [] else [])).length =
      if c1 ∧ c2 ∧ p x = true then 1 else 0 := by
  by_cases h1 : c1
  · by_cases h2 : c2
    · by_cases hx : p x = true <;> simp [h1, h2, hx, List.filter]
    · simp [h1, h2]
  · simp [h1]

/-- Counting lemma for the pure tail of the classifier: provided the
recurrence-detection prefix contains no completion- or postponement-family
edit, the final list contains at most one member of each family. -/
theorem changesBetweenRest_families (f t : Task) (b : Bool) (res0 : List Changes)
    (dr : Bool) (hc : List.filter isCompletionFam res0 = [])
    (hp : List.filter isPostponeFam res0 = []) :
    (List.filter isCompletionFam (changesBetweenRest f t b res0 dr)).length ≤ 1 ∧
    (List.filter isPostponeFam (changesBetweenRest f t b res0 dr)).length ≤ 1 := by
  constructor
  · simp only [changesBetweenRest, List.filter_append, List.length_append, hc,
      completion_copied, completion_postponed, completion_finishedAt,
      filter_singleton_if, filter_singleton_if2, isCompletionFam,
      List.length_nil]
    by_cases hF : doneFinishedAt f t = true
    · simp [hF]
    · simp only [Bool.not_eq_true] at hF
      simp only [hF]
      simp
      split <;> omega
  · simp only [changesBetweenRest, List.filter_append, List.length_append, hp,
      postpone_copied, postpone_finishedAt, postpone_postponed,
      filter_singleton_if, filter_singleton_if2, isPostponeFam,
      List.length_nil]
    by_cases hP : donePostponedStrict f t dr = true
    · simp [hP]
    · simp only [Bool.not_eq_true] at hP
      simp only [hP]
      simp
      split <;> omega

/-- C6 (confirmed): whenever `changes_between` returns, its edit list holds at
most one member of the completion family `{FinishedAt, Finished}` and at most
one member of the postponement family `{PostponedStrictBy, DueDate}`. -/
theorem changes_between_family_invariant (f t : Task) (isFirst : Bool)
    (res : List Changes) (h : changesBetween f t isFirst = .ok res) :
    (List.filter isCompletionFam res).length ≤ 1 ∧
    (List.filter isPostponeFam res).length ≤ 1 := by
  unfold changesBetween at h
  rcases hrp : recurrencePart f t isFirst with e | p
  · rw [hrp] at h
    simp [Bind.bind, Except.bind] at h
  · obtain ⟨res0, dr⟩ := p
    rw [hrp] at h
    simp only [Bind.bind, Except.bind, Pure.pure, Except.pure, Except.ok.injEq] at h
    subst h
    have hshape := recurrencePart_shape f t isFirst res0 dr hrp
    have hc : List.filter isCompletionFam res0 = [] := by
      rcases hshape with h0 | h0 | ⟨d, h0⟩ <;> subst h0 <;> rfl
    have hp : List.filter isPostponeFam res0 = [] := by
      rcases hshape with h0 | h0 | ⟨d, h0⟩ <;> subst h0 <;> rfl
    exact changesBetweenRest_families f t isFirst res0 dr hc hp

/-- Witness for `changes_between_family_invariant` on a concrete pair. -/
theorem changes_between_family_invariant_witness :
    changesBetween taskRecOrig taskRecDone true =
      .ok [Changes.FinishedAt ⟨2018, 4, 8⟩, Changes.PostponedStrictBy 2] ∧
    (List.filter isCompletionFam
      [Changes.FinishedAt ⟨2018, 4, 8⟩, Changes.PostponedStrictBy 2]).length ≤ 1 ∧
    (List.filter isPostponeFam
      [Changes.FinishedAt ⟨2018, 4, 8⟩, Changes.PostponedStrictBy 2]).length ≤ 1 :=
  ⟨by decide,
   changes_between_family_invariant taskRecOrig taskRecDone true
     [Changes.FinishedAt ⟨2018, 4, 8⟩, Changes.PostponedStrictBy 2] (by decide)⟩

/-! ## C8 — comparing a snapshot with itself -/

theorem removeCommonGo_self [DecidableEq α] :
    ∀ (c a : List α), removeCommonGo c (a, a) = (a.diff c, a.diff c) := by
  intro c
  induction c with
  | nil => intro a; simp [removeCommonGo]
  | cons x rest ih =>
    intro a
    unfold removeCommonGo
    by_cases hx : x ∈ a
    · rw [if_pos hx, ih]
      simp [List.diff_cons]
    · rw [if_neg hx, ih]
      simp [List.diff_cons, List.erase_of_not_mem hx]

theorem list_diff_self [DecidableEq α] : ∀ (l : List α), l.diff l = [] := by
  intro l
  induction l with
  | nil => rfl
  | cons x xs ih => rw [List.diff_cons, List.erase_cons_head, ih]

theorem removeCommon_self [DecidableEq α] (l : List α) : removeCommon l l = ([], []) := by
  unfold removeCommon
  rw [removeCommonGo_self, list_diff_self]

/-- C8 (confirmed): comparing any task list with itself yields no new tasks
and an empty list of per-task deltas — `remove_common` cancels the two equal
lists entirely, so in particular no task is reported as deleted, changed or
recurred (this `TaskDelta` has no `Identical` arm; common tasks are simply
removed before matching). -/
theorem compute_changeset_identity (X : List Task) (d : Nat) :
    computeChangeset X X d = .ok ([], []) := by
  unfold computeChangeset computeChangesetFolded
  rw [removeCommon_self]
  rfl

/-! ## Generic inversion lemmas for the `Except`-monadic pipeline -/

theorem bind_ok_iff {α β : Type} {x : Except Unit α} {f : α → Except Unit β} {r : β} :
    (x >>= f) = .ok r ↔ ∃ a, x = .ok a ∧ f a = .ok r := by
  cases x <;> simp [Bind.bind, Except.bind]

theorem pure_ok {α : Type} (a : α) : (pure a : Except Unit α) = .ok a := rfl

theorem perm_of_eq {α : Type} {l₁ l₂ : List α} (h : l₁ = l₂) : l₁.Perm l₂ :=
  h ▸ List.Perm.refl _

theorem mem_of_getElem?' {α : Type} {l : List α} {i : Nat} {a : α}
    (h : l[i]? = some a) : a ∈ l := by
  induction l generalizing i with
  | nil => simp at h
  | cons x xs ih =>
    cases i with
    | zero =>
      simp at h
      simp [h]
    | succ n =>
      simp at h
      exact List.mem_cons_of_mem _ (ih h)

theorem foldlM_ok_ind {σ α : Type} (f : σ → α → Except Unit σ) (P : σ → Prop) :
    ∀ (l : List α) (s s' : σ), P s →
      (∀ s a s', a ∈ l → P s → f s a = .ok s' → P s') →
      l.foldlM f s = .ok s' → P s' := by
  intro l
  induction l with
  | nil =>
    intro s s' hP _ h
    rw [List.foldlM_nil] at h
    simp [Pure.pure, Except.pure] at h
    exact h ▸ hP
  | cons a l ih =>
    intro s s' hP hstep h
    rw [List.foldlM_cons] at h
    obtain ⟨s1, hfs, hrest⟩ := bind_ok_iff.mp h
    exact ih s1 s' (hstep s a s1 (by simp) hP hfs)
      (fun s2 a' s3 ha' => hstep s2 a' s3 (by simp [ha'])) hrest

theorem mapM_ok_forall₂ {α β : Type} (g : α → Except Unit β) :
    ∀ (l : List α) (r : List β), mapM g l = .ok r →
      List.Forall₂ (fun a b => g a = .ok b) l r := by
  intro l
  induction l with
  | nil =>
    intro r h
    rw [List.mapM_nil] at h
    simp [Pure.pure, Except.pure] at h
    simp [← h]
  | cons a l ih =>
    intro r h
    rw [List.mapM_cons] at h
    obtain ⟨b, hb, h2⟩ := bind_ok_iff.mp h
    obtain ⟨rest, hrest, h3⟩ := bind_ok_iff.mp h2
    simp [Pure.pure, Except.pure] at h3
    rw [← h3]
    exact List.Forall₂.cons hb (ih rest hrest)

theorem forall₂_getElem? {α β : Type} {R : α → β → Prop} :
    ∀ {l : List α} {r : List β}, List.Forall₂ R l r →
      ∀ (i : Nat) (a : α) (b : β), l[i]? = some a → r[i]? = some b → R a b := by
  intro l r h
  induction h with
  | nil =>
    intro i a b ha _
    simp at ha
  | cons hR _ ih =>
    intro i a b ha hb
    cases i with
    | zero =>
      simp at ha hb
      exact ha ▸ hb ▸ hR
    | succ n =>
      simp at ha hb
      exact ih n a b ha hb

/-! ## Bookkeeping lemmas for the extraction and folding stages -/

/-- The tasks consumed inside a delta. -/
def deltaTasks : TaskDelta Task → List Task
  | .Deleted => []
  | .Changed t => [t]
  | .Recurred ts => ts

theorem takeAt_ok {α : Type} {l : List (Option α)} {i : Nat} {x : α}
    {l' : List (Option α)} (h : takeAt l i = .ok (x, l')) :
    l[i]? = some (some x) ∧ l' = l.set i none := by
  unfold takeAt at h
  split at h
  next x0 heq =>
    simp at h
    exact ⟨h.1 ▸ heq, h.2.symm⟩
  next =>
    simp at h

theorem filterMap_id_map_some {α : Type} : ∀ (l : List α), (l.map some).filterMap id = l := by
  intro l
  induction l with
  | nil => rfl
  | cons a l ih => simp [ih]

theorem filterMap_id_set_none_perm {α : Type} :
    ∀ (l : List (Option α)) (i : Nat) (x : α), l[i]? = some (some x) →
      (l.filterMap id).Perm (x :: (l.set i none).filterMap id) := by
  intro l
  induction l with
  | nil =>
    intro i x h
    simp at h
  | cons o rest ih =>
    intro i x h
    cases i with
    | zero =>
      simp at h
      subst h
      simp
    | succ n =>
      simp at h
      have hrec := ih n x h
      cases o with
      | none => simpa using hrec
      | some a =>
        simp only [List.filterMap_cons, List.set]
        simp only [id]
        exact (hrec.cons a).trans (List.Perm.swap x a _)

theorem filterMap_id_set_none_sublist {α : Type} :
    ∀ (l : List (Option α)) (i : Nat),
      ((l.set i none).filterMap id).Sublist (l.filterMap id) := by
  intro l
  induction l with
  | nil =>
    intro i
    simp
  | cons o rest ih =>
    intro i
    cases i with
    | zero =>
      cases o with
      | none => simp
      | some a =>
        simp only [List.set, List.filterMap_cons, id]
        exact List.sublist_cons_self a _
    | succ n =>
      cases o with
      | none =>
        simpa using ih n
      | some a =>
        simp only [List.set, List.filterMap_cons, id]
        exact (ih n).cons₂ a

theorem minByLast_foldl_mem {α : Type} (step : α → α → α)
    (hstep : ∀ a y, step a y = a ∨ step a y = y) :
    ∀ (l : List α) (acc : α), l.foldl step acc = acc ∨ l.foldl step acc ∈ l := by
  intro l
  induction l with
  | nil =>
    intro acc
    simp
  | cons y ys ih =>
    intro acc
    rcases ih (step acc y) with h | h
    · rcases hstep acc y with h2 | h2
      · left
        rw [List.foldl_cons, h, h2]
      · right
        rw [List.foldl_cons, h, h2]
        exact List.mem_cons_self y ys
    · right
      rw [List.foldl_cons]
      exact List.mem_cons_of_mem _ h

theorem minByLast_mem {α : Type} (cmp : α → α → Ordering) :
    ∀ (l : List α) (x : α), minByLast cmp l = some x → x ∈ l := by
  intro l x h
  cases l with
  | nil => simp [minByLast] at h
  | cons a l =>
    simp only [minByLast, Option.some.injEq] at h
    have := minByLast_foldl_mem (fun acc y => if cmp acc y = Ordering.lt then acc else y)
      (fun a y => by by_cases hcy : cmp a y = Ordering.lt <;> simp [hcy]) l a
    rcases this with h2 | h2
    · rw [h] at h2
      simp [h2]
    · rw [h] at h2
      simp [h2]

theorem filterME_ok_mem {α : Type} (p : α → Except Unit Bool) :
    ∀ (l r : List α), filterME p l = .ok r → ∀ x ∈ r, x ∈ l := by
  intro l
  induction l with
  | nil =>
    intro r h x hx
    simp [filterME, Pure.pure, Except.pure] at h
    subst h
    simp at hx
  | cons a l ih =>
    intro r h x hx
    unfold filterME at h
    obtain ⟨b, _, h2⟩ := bind_ok_iff.mp h
    obtain ⟨rest, hrest, h3⟩ := bind_ok_iff.mp h2
    by_cases hbv : b = true
    · subst hbv
      simp [Pure.pure, Except.pure] at h3
      subst h3
      rcases List.mem_cons.mp hx with h4 | h4
      · simp [h4]
      · exact List.mem_cons_of_mem _ (ih rest hrest x h4)
    · have hbv' : b = false := by cases b <;> simp_all
      subst hbv'
      simp [Pure.pure, Except.pure] at h3
      subst h3
      exact List.mem_cons_of_mem _ (ih rest hrest x hx)

/-- Conservation facts about the extraction stage: the matched originals plus
the deleted leftovers are a permutation of `from`, the consumed `to` tasks
plus the leftover pool are a permutation of `to`, the leftover pool is a
sublist of `to`, and every `Recurred` chain is a singleton. -/
theorem extractMatches_inv {matching : List (Option Nat)} {fromL toL : List Task}
    {ms0 dels toRem} (h : extractMatches matching fromL toL = .ok (ms0, dels, toRem)) :
    (ms0.map (fun e => e.orig) ++ dels).Perm fromL ∧
    (ms0.flatMap (fun e => deltaTasks e.delta) ++ toRem).Perm toL ∧
    toRem.Sublist toL ∧
    (∀ e ∈ ms0, ∀ chain, e.delta = TaskDelta.Recurred chain → ∃ hh, chain = [hh]) := by
  unfold extractMatches at h
  obtain ⟨st, hfold, hpure⟩ := bind_ok_iff.mp h
  simp [Pure.pure, Except.pure] at hpure
  have hgoal := foldlM_ok_ind _
    (fun (st : List (Option Task) × List (Option Task) × List (ChangedTask Task)) =>
      (st.2.2.map (fun e => e.orig) ++ st.1.filterMap id).Perm fromL ∧
      (st.2.2.flatMap (fun e => deltaTasks e.delta) ++ st.2.1.filterMap id).Perm toL ∧
      (st.2.1.filterMap id).Sublist toL ∧
      (∀ e ∈ st.2.2, ∀ chain, e.delta = TaskDelta.Recurred chain → ∃ hh, chain = [hh]))
    _ _ st ?_ ?_ hfold
  · obtain ⟨h1, h2, h3, h4⟩ := hgoal
    refine ⟨?_, ?_, ?_, ?_⟩
    · rw [← hpure.1, ← hpure.2.1]
      exact h1
    · rw [← hpure.1, ← hpure.2.2]
      exact h2
    · rw [← hpure.2.2]
      exact h3
    · rw [← hpure.1]
      exact h4
  · refine ⟨?_, ?_, ?_, ?_⟩
    · simp [filterMap_id_map_some]
    · simp [filterMap_id_map_some]
    · simp [filterMap_id_map_some]
    · simp
  · rintro ⟨fo, to2, acc⟩ ij st' _ ⟨hP1, hP2, hP3, hP4⟩ hstep
    obtain ⟨⟨ft, fo'⟩, hft, hstep2⟩ := bind_ok_iff.mp hstep
    obtain ⟨⟨tt, to'⟩, htt, hstep3⟩ := bind_ok_iff.mp hstep2
    simp [Pure.pure, Except.pure] at hstep3
    obtain ⟨hfo, hfo'⟩ := takeAt_ok hft
    obtain ⟨hto, hto'⟩ := takeAt_ok htt
    subst hfo' hto'
    rw [← hstep3]
    have hdT : deltaTasks
        (if tagsGet ft.tags recKey = none then TaskDelta.Changed tt
         else TaskDelta.Recurred [tt]) = [tt] := by
      split <;> rfl
    refine ⟨?_, ?_, ?_, ?_⟩
    · dsimp only
      simp only [List.map_append, List.map_cons, List.map_nil]
      have hperm := filterMap_id_set_none_perm fo ij.1 ft hfo
      have heq : (acc.map (fun e => e.orig) ++ [ft]) ++ (fo.set ij.1 none).filterMap id
          = acc.map (fun e => e.orig) ++ (ft :: (fo.set ij.1 none).filterMap id) := by
        simp
      rw [heq]
      exact (List.Perm.append_left _ hperm.symm).trans hP1
    · dsimp only
      simp only [List.flatMap_append, List.flatMap_cons, List.flatMap_nil, hdT]
      have hperm := filterMap_id_set_none_perm to2 ij.2 tt hto
      have heq : (acc.flatMap (fun e => deltaTasks e.delta) ++ ([tt] ++ [])) ++
            (to2.set ij.2 none).filterMap id
          = acc.flatMap (fun e => deltaTasks e.delta) ++
            (tt :: (to2.set ij.2 none).filterMap id) := by simp
      rw [heq]
      exact (List.Perm.append_left _ hperm.symm).trans hP2
    · dsimp only
      exact (filterMap_id_set_none_sublist to2 ij.2).trans hP3
    · dsimp only
      intro e he chain hchain
      rcases List.mem_append.mp he with he | he
      · exact hP4 e he chain hchain
      · simp at he
        subst he
        simp at hchain
        split at hchain
        · cases hchain
        · cases hchain
          exact ⟨tt, rfl⟩

theorem pushToChain_spec {ms : List (ChangedTask Task)} {i : Nat}
    {e : ChangedTask Task} {ts : List Task} (hi : ms[i]? = some e)
    (hd : e.delta = TaskDelta.Recurred ts) (x : Task) :
    pushToChain ms i x = ms.set i ⟨e.orig, TaskDelta.Recurred (ts ++ [x])⟩ := by
  unfold pushToChain
  simp only [hi]
  rw [hd]

/-- Case analysis of one folding step: the task is either appended onto an
existing `Recurred` chain, or added to the new-task pool. -/
theorem detectStep_cases {d : Nat} {ms : List (ChangedTask Task)} {news : List Task}
    {x : Task} {st'} (h : detectStep d (ms, news) x = .ok st') :
    (∃ i e ts, ms[i]? = some e ∧ e.delta = TaskDelta.Recurred ts ∧
      st' = (ms.set i ⟨e.orig, TaskDelta.Recurred (ts ++ [x])⟩, news)) ∨
    st' = (ms, news ++ [x]) := by
  unfold detectStep at h
  obtain ⟨adm, hadm, hrest⟩ := bind_ok_iff.mp h
  rcases hbest : minByLast (fun a b => cmpTasks3way x a.2 b.2) adm with _ | best
  · rw [hbest] at hrest
    simp [Pure.pure, Except.pure] at hrest
    right
    exact hrest.symm
  · rw [hbest] at hrest
    simp [Pure.pure, Except.pure] at hrest
    left
    have hmem := filterME_ok_mem _ _ _ hadm best (minByLast_mem _ _ _ hbest)
    obtain ⟨p, hp, hfp⟩ := List.mem_filterMap.mp hmem
    have hpe : ms[p.1]? = some p.2 := List.mem_enum_iff_getElem?.mp hp
    rcases hdelta : p.2.delta with _ | _ | ts
    · rw [hdelta] at hfp
      cases hfp
    · rw [hdelta] at hfp
      cases hfp
    · obtain ⟨bi, bo⟩ := best
      rw [hdelta] at hfp
      injection hfp with hfp2
      injection hfp2 with hb1 hb2
      subst hb1
      refine ⟨p.1, p.2, ts, hpe, hdelta, ?_⟩
      rw [← hrest, pushToChain_spec hpe hdelta]

theorem set_map_orig {ms : List (ChangedTask Task)} :
    ∀ (i : Nat) (e e' : ChangedTask Task), ms[i]? = some e → e'.orig = e.orig →
      (ms.set i e').map (fun x => x.orig) = ms.map (fun x => x.orig) := by
  induction ms with
  | nil =>
    intro i e e' hi _
    simp at hi
  | cons a rest ih =>
    intro i e e' hi horig
    cases i with
    | zero =>
      simp at hi
      subst hi
      simp [horig]
    | succ n =>
      simp at hi
      simp [ih n e e' hi horig]

theorem set_flatMap_perm {ms : List (ChangedTask Task)} :
    ∀ {i : Nat} {e : ChangedTask Task} {ts : List Task} (x : Task),
      ms[i]? = some e → e.delta = TaskDelta.Recurred ts →
      ((ms.set i ⟨e.orig, TaskDelta.Recurred (ts ++ [x])⟩).flatMap
        (fun e => deltaTasks e.delta)).Perm
        (ms.flatMap (fun e => deltaTasks e.delta) ++ [x]) := by
  induction ms with
  | nil =>
    intro i e ts x hi _
    simp at hi
  | cons a rest ih =>
    intro i e ts x hi hd
    cases i with
    | zero =>
      simp at hi
      subst hi
      simp only [List.set, List.flatMap_cons]
      dsimp only [deltaTasks]
      rw [hd]
      dsimp only [deltaTasks]
      rw [List.append_assoc, List.append_assoc]
      exact List.Perm.append_left ts List.perm_append_comm
    | succ n =>
      simp at hi
      simp only [List.set, List.flatMap_cons]
      have hrec := ih x hi hd
      refine (List.Perm.append_left _ hrec).trans (perm_of_eq ?_)
      simp

/-- Through the folding loop, each chain keeps its head (the matched task) and
extends only by leftover tasks in their input order. -/
theorem detect_chains (d : Nat) :
    ∀ (rem pre : List Task) (ms : List (ChangedTask Task)) (news : List Task) ms' news',
      rem.foldlM (detectStep d) (ms, news) = .ok (ms', news') →
      (∀ e ∈ ms, ∀ chain, e.delta = TaskDelta.Recurred chain →
        ∃ hh tl, chain = hh :: tl ∧ tl.Sublist pre) →
      (∀ e ∈ ms', ∀ chain, e.delta = TaskDelta.Recurred chain →
        ∃ hh tl, chain = hh :: tl ∧ tl.Sublist (pre ++ rem)) := by
  intro rem
  induction rem with
  | nil =>
    intro pre ms news ms' news' hfold hms
    rw [List.foldlM_nil] at hfold
    simp [Pure.pure, Except.pure] at hfold
    obtain ⟨hms', _⟩ := hfold
    subst hms'
    intro e he chain hchain
    obtain ⟨hh, tl, h1, h2⟩ := hms e he chain hchain
    exact ⟨hh, tl, h1, by simpa using h2⟩
  | cons x rest ih =>
    intro pre ms news ms' news' hfold hms
    rw [List.foldlM_cons] at hfold
    obtain ⟨st1, hstep, hrest⟩ := bind_ok_iff.mp hfold
    have hconv : ∀ e ∈ ms', ∀ chain, e.delta = TaskDelta.Recurred chain →
        ∃ hh tl, chain = hh :: tl ∧ tl.Sublist ((pre ++ [x]) ++ rest) := by
      rcases detectStep_cases hstep with ⟨i, e, ts, hpe, hdelta, hst1⟩ | hst1
      · subst hst1
        refine ih (pre ++ [x]) _ _ ms' news' hrest ?_
        intro e' he' chain hchain
        rcases List.mem_or_eq_of_mem_set he' with he' | he'
        · obtain ⟨hh, tl, h1, h2⟩ := hms e' he' chain hchain
          exact ⟨hh, tl, h1, h2.trans (List.sublist_append_left pre [x])⟩
        · subst he'
          injection hchain with hinj
          obtain ⟨hh, tl, h1, h2⟩ :=
            hms e (mem_of_getElem?' hpe) ts hdelta
          subst h1
          refine ⟨hh, tl ++ [x], ?_, h2.append (List.Sublist.refl [x])⟩
          rw [← hinj]
          simp
      · subst hst1
        refine ih (pre ++ [x]) _ _ ms' news' hrest ?_
        intro e' he' chain hchain
        obtain ⟨hh, tl, h1, h2⟩ := hms e' he' chain hchain
        exact ⟨hh, tl, h1, h2.trans (List.sublist_append_left pre [x])⟩
    intro e he chain hchain
    obtain ⟨hh, tl, h1, h2⟩ := hconv e he chain hchain
    exact ⟨hh, tl, h1, by simpa using h2⟩

/-- Through the folding loop, the originals are unchanged and the consumed
tasks plus the new-task pool are conserved as a multiset. -/
theorem detect_conserve (d : Nat) :
    ∀ (rem : List Task) (ms : List (ChangedTask Task)) (news : List Task) ms' news',
      rem.foldlM (detectStep d) (ms, news) = .ok (ms', news') →
      ms'.map (fun e => e.orig) = ms.map (fun e => e.orig) ∧
      (ms'.flatMap (fun e => deltaTasks e.delta) ++ news').Perm
        (ms.flatMap (fun e => deltaTasks e.delta) ++ news ++ rem) := by
  intro rem
  induction rem with
  | nil =>
    intro ms news ms' news' hfold
    rw [List.foldlM_nil] at hfold
    simp [Pure.pure, Except.pure] at hfold
    obtain ⟨h1, h2⟩ := hfold
    subst h1 h2
    simp
  | cons x rest ih =>
    intro ms news ms' news' hfold
    rw [List.foldlM_cons] at hfold
    obtain ⟨st1, hstep, hrest⟩ := bind_ok_iff.mp hfold
    rcases detectStep_cases hstep with ⟨i, e, ts, hpe, hdelta, hst1⟩ | hst1
    · subst hst1
      obtain ⟨h1, h2⟩ := ih _ _ ms' news' hrest
      constructor
      · rw [h1, set_map_orig i e ⟨e.orig, TaskDelta.Recurred (ts ++ [x])⟩ hpe rfl]
      · refine h2.trans ?_
        have ha : ((ms.set i ⟨e.orig, TaskDelta.Recurred (ts ++ [x])⟩).flatMap
              (fun e => deltaTasks e.delta) ++ news ++ rest).Perm
            ((ms.flatMap (fun e => deltaTasks e.delta) ++ [x]) ++ news ++ rest) :=
          List.Perm.append_right rest
            (List.Perm.append_right news (set_flatMap_perm x hpe hdelta))
        refine ha.trans ?_
        have hb : (ms.flatMap (fun e => deltaTasks e.delta) ++ [x]) ++ news ++ rest
            = ms.flatMap (fun e => deltaTasks e.delta) ++ (([x] ++ news) ++ rest) := by
          simp
        have hc : ms.flatMap (fun e => deltaTasks e.delta) ++ news ++ (x :: rest)
            = ms.flatMap (fun e => deltaTasks e.delta) ++ ((news ++ [x]) ++ rest) := by
          simp
        rw [hb, hc]
        exact List.Perm.append_left _
          (List.Perm.append_right rest List.perm_append_comm)
    · subst hst1
      obtain ⟨h1, h2⟩ := ih _ _ ms' news' hrest
      refine ⟨h1, h2.trans (perm_of_eq ?_)⟩
      simp

/-- Inversion of the matching-and-folding pipeline into its stages. -/
theorem computeChangesetFolded_inv {fromL toL : List Task} {d : Nat}
    {ms : List (ChangedTask Task)} {dels news : List Task}
    (h : computeChangesetFolded fromL toL d = .ok (ms, dels, news)) :
    ∃ fromPrefs toPrefs ms0 toRem,
      (removeCommon fromL toL).1.mapM
        (fun t => preferredTaskIds t (removeCommon fromL toL).2 d) = .ok fromPrefs ∧
      (removeCommon fromL toL).2.mapM
        (fun t => preferredTaskIds t (removeCommon fromL toL).1 d) = .ok toPrefs ∧
      extractMatches (stableMarriagePrefs fromPrefs toPrefs).1
        (removeCommon fromL toL).1 (removeCommon fromL toL).2 = .ok (ms0, dels, toRem) ∧
      detectRecurred d ms0 toRem = .ok (ms, news) := by
  unfold computeChangesetFolded at h
  rcases hrc : removeCommon fromL toL with ⟨fromC, toC⟩
  rw [hrc] at h
  obtain ⟨fromPrefs, h1, h⟩ := bind_ok_iff.mp h
  obtain ⟨toPrefs, h2, h⟩ := bind_ok_iff.mp h
  rcases hsm : stableMarriagePrefs fromPrefs toPrefs with ⟨matching, wmatching⟩
  rw [hsm] at h
  obtain ⟨⟨ms0, dels0, toRem⟩, h3, h⟩ := bind_ok_iff.mp h
  obtain ⟨⟨ms1, news1⟩, h4, h5⟩ := bind_ok_iff.mp h
  simp [Pure.pure, Except.pure] at h5
  obtain ⟨hms1, hdels0, hnews1⟩ := h5
  subst hms1 hdels0 hnews1
  refine ⟨fromPrefs, toPrefs, ms0, toRem, ?_, ?_, ?_, h4⟩
  · simpa [hrc] using h1
  · simpa [hrc] using h2
  · simpa [hrc, hsm] using h3

/-- Inversion of `compute_changeset` into folding and classification. -/
theorem computeChangeset_inv {fromL toL : List Task} {d : Nat} {news : List Task}
    {changes : List (ChangedTask (List Changes))}
    (h : computeChangeset fromL toL d = .ok (news, changes)) :
    ∃ ms dels classified,
      computeChangesetFolded fromL toL d = .ok (ms, dels, news) ∧
      ms.mapM (fun e => do
        let dd ← classifyDelta e.orig e.delta
        pure (ChangedTask.mk e.orig dd)) = .ok classified ∧
      changes = classified ++ dels.map (fun t => ChangedTask.mk t TaskDelta.Deleted) := by
  unfold computeChangeset at h
  obtain ⟨⟨ms, dels, news1⟩, hfold, h2⟩ := bind_ok_iff.mp h
  obtain ⟨classified, hmapM, h3⟩ := bind_ok_iff.mp h2
  simp [Pure.pure, Except.pure] at h3
  obtain ⟨hnews, hchanges⟩ := h3
  subst hnews
  exact ⟨ms, dels, classified, hfold, hmapM, hchanges.symm⟩

theorem classified_map_orig {ms : List (ChangedTask Task)}
    {classified : List (ChangedTask (List Changes))}
    (h : List.Forall₂ (fun e c => (do
      let dd ← classifyDelta e.orig e.delta
      pure (ChangedTask.mk e.orig dd) : Except Unit (ChangedTask (List Changes))) = .ok c)
      ms classified) :
    classified.map (fun c => c.orig) = ms.map (fun e => e.orig) := by
  induction h with
  | nil => rfl
  | cons hR _ ih =>
    obtain ⟨dd, _, hpure⟩ := bind_ok_iff.mp hR
    simp [Pure.pure, Except.pure] at hpure
    simp [← hpure, ih]

/-- C10 (confirmed): `compute_changeset` conserves its inputs as a partition.
Whenever it succeeds, the originals of the changed-task output are exactly the
matched originals followed by the deleted leftovers — a permutation of the
`from` tasks surviving `remove_common` — and the `to` tasks surviving
`remove_common` are, as a multiset, exactly the tasks consumed inside the
`Changed`/`Recurred` deltas plus the reported new tasks: nothing is duplicated
or dropped. -/
theorem compute_changeset_partition (fromL toL : List Task) (d : Nat)
    (news : List Task) (changes : List (ChangedTask (List Changes)))
    (h : computeChangeset fromL toL d = .ok (news, changes)) :
    ∃ ms dels, computeChangesetFolded fromL toL d = .ok (ms, dels, news) ∧
      changes.map (fun c => c.orig) = ms.map (fun e => e.orig) ++ dels ∧
      (ms.map (fun e => e.orig) ++ dels).Perm (removeCommon fromL toL).1 ∧
      (ms.flatMap (fun e => deltaTasks e.delta) ++ news).Perm
        (removeCommon fromL toL).2 := by
  obtain ⟨ms, dels, classified, hfold, hmapM, hchanges⟩ := computeChangeset_inv h
  obtain ⟨fp, tp, ms0, toRem, _, _, hext, hdet⟩ := computeChangesetFolded_inv hfold
  obtain ⟨hexFrom, hexTo, _, _⟩ := extractMatches_inv hext
  unfold detectRecurred at hdet
  obtain ⟨horig, hperm⟩ := detect_conserve d toRem ms0 [] ms news hdet
  refine ⟨ms, dels, hfold, ?_, ?_, ?_⟩
  · rw [hchanges]
    have h1 := classified_map_orig (mapM_ok_forall₂ _ ms classified hmapM)
    simp only [List.map_append, h1, List.map_map, Function.comp_def]
    simp
  · rw [horig]
    exact hexFrom
  · refine hperm.trans ?_
    have heq : ms0.flatMap (fun e => deltaTasks e.delta) ++ [] ++ toRem
        = ms0.flatMap (fun e => deltaTasks e.delta) ++ toRem := by simp
    rw [heq]
    exact hexTo

theorem classifyDelta_recurred_inv {orig : Task} {chain : List Task}
    {dd : TaskDelta (List Changes)}
    (h : classifyDelta orig (TaskDelta.Recurred chain) = .ok dd)
    (hlen : 2 ≤ chain.length) :
    ∃ edits, dd = TaskDelta.Recurred edits ∧ edits.length = chain.length ∧
      ∀ i t ed, chain[i]? = some t → edits[i]? = some ed →
        changesBetween orig t (i == 0) = .ok ed := by
  unfold classifyDelta at h
  obtain ⟨recurred, hmapM, h2⟩ := bind_ok_iff.mp h
  have hf := mapM_ok_forall₂ _ chain.enum recurred hmapM
  have hlen2 : recurred.length = chain.length := by
    simpa using hf.length_eq.symm
  match recurred, hlen2 with
  | [], hlen2 => simp at hlen2; omega
  | [a], hlen2 => simp at hlen2; omega
  | a :: b :: r, hlen2 =>
    simp [Pure.pure, Except.pure] at h2
    refine ⟨a :: b :: r, h2.symm, hlen2, ?_⟩
    intro i t ed ht hed
    have henum : chain.enum[i]? = some (i, t) := by
      simp [List.getElem?_enum, ht]
    exact forall₂_getElem? hf i (i, t) ed henum hed

/-- C4 (corrected): in every `Recurred` delta with at least two chain
elements, the edit list stored at position `i` is
`changes_between(original_task, chain[i], is_first = (i == 0))` for EVERY
`i` — the classifier always compares against the original task, never
pairwise between successive chain members as claimed. -/
theorem classifier_from_original (fromL toL : List Task) (d : Nat)
    (news : List Task) (changes : List (ChangedTask (List Changes)))
    (h : computeChangeset fromL toL d = .ok (news, changes)) :
    ∃ ms dels, computeChangesetFolded fromL toL d = .ok (ms, dels, news) ∧
      ∀ (k : Nat) (e : ChangedTask Task) (chain : List Task),
        ms[k]? = some e → e.delta = TaskDelta.Recurred chain →
        2 ≤ chain.length →
        ∃ edits, changes[k]? = some ⟨e.orig, TaskDelta.Recurred edits⟩ ∧
          edits.length = chain.length ∧
          ∀ i t ed, chain[i]? = some t → edits[i]? = some ed →
            changesBetween e.orig t (i == 0) = .ok ed := by
  obtain ⟨ms, dels, classified, hfold, hmapM, hchanges⟩ := computeChangeset_inv h
  refine ⟨ms, dels, hfold, ?_⟩
  intro k e chain hk hdelta hlen
  have hf := mapM_ok_forall₂ _ ms classified hmapM
  have hlencm : classified.length = ms.length := hf.length_eq.symm
  have hklt : k < ms.length := by
    by_contra hge
    push_neg at hge
    rw [List.getElem?_eq_none hge] at hk
    cases hk
  obtain ⟨c, hkc⟩ : ∃ c, classified[k]? = some c := by
    rw [List.getElem?_eq_getElem (show k < classified.length by omega)]
    exact ⟨_, rfl⟩
  have hR := forall₂_getElem? hf k e c hk hkc
  obtain ⟨dd, hclass, hpure⟩ := bind_ok_iff.mp hR
  simp [Pure.pure, Except.pure] at hpure
  subst hpure
  rw [hdelta] at hclass
  obtain ⟨edits, hdd, hlenE, hpt⟩ := classifyDelta_recurred_inv hclass hlen
  refine ⟨edits, ?_, hlenE, hpt⟩
  rw [hchanges, List.getElem?_append, if_pos (show k < classified.length by omega),
    hkc, hdd]

/-- Witness for `classifier_from_original` on the recurring-task example. -/
theorem classifier_from_original_witness :
    ∃ ms dels,
      computeChangesetFolded [taskRecOrig] [taskRecDone, taskRecNext] 50
        = .ok (ms, dels, []) ∧
      ∀ (k : Nat) (e : ChangedTask Task) (chain : List Task),
        ms[k]? = some e → e.delta = TaskDelta.Recurred chain →
        2 ≤ chain.length →
        ∃ edits, ([⟨taskRecOrig, TaskDelta.Recurred
            [[Changes.FinishedAt ⟨2018, 4, 8⟩, Changes.PostponedStrictBy 2],
             [Changes.Copied, Changes.PostponedStrictBy 1,
              Changes.Subject
                [Char.ofNat 102, Char.ofNat 111, Char.ofNat 111]
                [Char.ofNat 102, Char.ofNat 111, Char.ofNat 111,
                 Char.ofNat 111]]]⟩] : List (ChangedTask (List Changes)))[k]?
            = some ⟨e.orig, TaskDelta.Recurred edits⟩ ∧
          edits.length = chain.length ∧
          ∀ i t ed, chain[i]? = some t → edits[i]? = some ed →
            changesBetween e.orig t (i == 0) = .ok ed :=
  classifier_from_original [taskRecOrig] [taskRecDone, taskRecNext] 50 []
    [⟨taskRecOrig, TaskDelta.Recurred
      [[Changes.FinishedAt ⟨2018, 4, 8⟩, Changes.PostponedStrictBy 2],
       [Changes.Copied, Changes.PostponedStrictBy 1,
        Changes.Subject
          [Char.ofNat 102, Char.ofNat 111, Char.ofNat 111]
          [Char.ofNat 102, Char.ofNat 111, Char.ofNat 111, Char.ofNat 111]]]⟩]
    (by decide)

/-- Counterexample to C4: on the recurring-task example the chain is
`[taskRecDone, taskRecNext]`, yet the edit list at position 1 is the diff of
`taskRecNext` against the ORIGINAL task (`PostponedStrictBy 1`, since the
original is due 2018-04-10 and `taskRecNext` 2018-04-11), and differs from
the pairwise diff `changes_between(taskRecDone, taskRecNext, false)` claimed
by the spec, which would contain `PostponedStrictBy (-1)` and a `Finished`
change. -/
theorem classifier_pairwise_cex :
    computeChangeset [taskRecOrig] [taskRecDone, taskRecNext] 50
      = .ok ([], [⟨taskRecOrig, TaskDelta.Recurred
          [[Changes.FinishedAt ⟨2018, 4, 8⟩, Changes.PostponedStrictBy 2],
           [Changes.Copied, Changes.PostponedStrictBy 1,
            Changes.Subject
              [Char.ofNat 102, Char.ofNat 111, Char.ofNat 111]
              [Char.ofNat 102, Char.ofNat 111, Char.ofNat 111,
               Char.ofNat 111]]]⟩]) ∧
    changesBetween taskRecOrig taskRecNext false
      = .ok [Changes.Copied, Changes.PostponedStrictBy 1,
             Changes.Subject
               [Char.ofNat 102, Char.ofNat 111, Char.ofNat 111]
               [Char.ofNat 102, Char.ofNat 111, Char.ofNat 111,
                Char.ofNat 111]] ∧
    changesBetween taskRecDone taskRecNext false
      ≠ .ok [Changes.Copied, Changes.PostponedStrictBy 1,
             Changes.Subject
               [Char.ofNat 102, Char.ofNat 111, Char.ofNat 111]
               [Char.ofNat 102, Char.ofNat 111, Char.ofNat 111,
                Char.ofNat 111]] := by
  refine ⟨by decide, by decide, by decide⟩

/-- C5 (corrected): chains of `Recurred` deltas are NOT sorted by due date —
`compute_changeset` never sorts them.  Instead every chain produced by the
folding stage is the matched `to` task followed by the leftover `to` tasks it
absorbed, kept in their input order: the tail is a sublist of the `to` list
surviving `remove_common`. -/
theorem recurred_chain_input_order (fromL toL : List Task) (d : Nat)
    (ms : List (ChangedTask Task)) (dels news : List Task)
    (h : computeChangesetFolded fromL toL d = .ok (ms, dels, news)) :
    ∀ e ∈ ms, ∀ chain, e.delta = TaskDelta.Recurred chain →
      ∃ hh tl, chain = hh :: tl ∧ tl.Sublist (removeCommon fromL toL).2 := by
  obtain ⟨fp, tp, ms0, toRem, _, _, hext, hdet⟩ := computeChangesetFolded_inv h
  obtain ⟨_, _, hsub, hsing⟩ := extractMatches_inv hext
  unfold detectRecurred at hdet
  have hbase : ∀ e ∈ ms0, ∀ chain, e.delta = TaskDelta.Recurred chain →
      ∃ hh tl, chain = hh :: tl ∧ tl.Sublist ([] : List Task) := by
    intro e he chain hchain
    obtain ⟨hh, hc⟩ := hsing e he chain hchain
    exact ⟨hh, [], by simpa using hc, List.nil_sublist _⟩
  have hres := detect_chains d toRem [] ms0 [] ms news hdet hbase
  intro e he chain hchain
  obtain ⟨hh, tl, h1, h2⟩ := hres e he chain hchain
  refine ⟨hh, tl, h1, List.Sublist.trans ?_ hsub⟩
  simpa using h2

/-- Witness for `recurred_chain_input_order` on the recurring-task example. -/
theorem recurred_chain_input_order_witness :
    computeChangesetFolded [taskRecOrig] [taskRecDone, taskRecNext] 50
      = .ok ([⟨taskRecOrig, TaskDelta.Recurred [taskRecDone, taskRecNext]⟩], [], []) ∧
    (∃ hh tl, [taskRecDone, taskRecNext] = hh :: tl ∧
      tl.Sublist (removeCommon [taskRecOrig] [taskRecDone, taskRecNext]).2) :=
  ⟨by decide,
   recurred_chain_input_order [taskRecOrig] [taskRecDone, taskRecNext] 50
     [⟨taskRecOrig, TaskDelta.Recurred [taskRecDone, taskRecNext]⟩] [] [] (by decide)
     ⟨taskRecOrig, TaskDelta.Recurred [taskRecDone, taskRecNext]⟩ (by simp)
     [taskRecDone, taskRecNext] rfl⟩

/-- Counterexample to C5: the folded chain on the recurring-task example is
`[taskRecDone, taskRecNext]` in input order, although `taskRecDone` is due
2018-04-12 and `taskRecNext` 2018-04-11: the due dates of successive chain
elements DECREASE, so the chain is not sorted by due date ascending. -/
theorem recurred_chain_not_sorted_cex :
    computeChangesetFolded [taskRecOrig] [taskRecDone, taskRecNext] 50
      = .ok ([⟨taskRecOrig, TaskDelta.Recurred [taskRecDone, taskRecNext]⟩], [], []) ∧
    taskRecDone.dueDate = some ⟨2018, 4, 12⟩ ∧
    taskRecNext.dueDate = some ⟨2018, 4, 11⟩ ∧
    signedDurationSince ⟨2018, 4, 11⟩ ⟨2018, 4, 12⟩ < 0 := by
  refine ⟨by decide, by decide, by decide, by decide⟩

/-- Witness for `compute_changeset_partition` on the empty comparison. -/
theorem compute_changeset_partition_witness :
    ∃ ms dels, computeChangesetFolded [] [] 0 = .ok (ms, dels, []) ∧
      List.map (fun c => c.orig) ([] : List (ChangedTask (List Changes)))
        = ms.map (fun e => e.orig) ++ dels ∧
      (ms.map (fun e => e.orig) ++ dels).Perm (removeCommon [] []).1 ∧
      (ms.flatMap (fun e => deltaTasks e.delta) ++ []).Perm (removeCommon [] []).2 :=
  compute_changeset_partition [] [] 0 [] [] rfl

/-! ## C2 — stability of the matching -/

/-- Woman `w` currently holds a partner at distance at most `d` from her. -/
def wHolds (wD : W → M → Nat) (w : WomanS M W) (d : Nat) : Prop :=
  ∃ q, w.currentMatch = some q ∧ wD w.data q.data ≤ d

/-- Every woman both-ways admissible to a proposer with data `pd` is either
still in his preference list or already holds a partner she weakly prefers
to him. -/
def Cover (mt : Matchers M W) (wD : W → M → Nat) (ws : List (WomanS M W))
    (pd : M) (prefs : List Nat) : Prop :=
  ∀ (j : Nat) (wj : WomanS M W), ws[j]? = some wj →
    mt.mAdm pd wj.data = true → mt.wAdm wj.data pd = true →
    j ∈ prefs ∨ wHolds wD wj (wD wj.data pd)

/-- The preference list is sorted by the proposer's distance, ascending. -/
def SortedP (mD : M → W → Nat) (ws : List (WomanS M W)) (pd : M)
    (prefs : List Nat) : Prop :=
  List.Pairwise (fun a b => ∀ wa wb, ws[a]? = some wa → ws[b]? = some wb →
    mD pd wa.data ≤ mD pd wb.data) prefs

/-- Women marked perfect hold a partner at distance zero from them. -/
def LockInv (wD : W → M → Nat) (ws : List (WomanS M W)) : Prop :=
  ∀ (j : Nat) (wj : WomanS M W), ws[j]? = some wj → wj.currentIsPerfect = true →
    ∃ q, wj.currentMatch = some q ∧ wD wj.data q.data = 0

/-- Every engaged man either is a perfect match of his partner, or covers the
women, keeps his remaining preferences sorted, and weakly prefers his partner
to every woman remaining in them. -/
def CoupleInv (mt : Matchers M W) (mD : M → W → Nat) (wD : W → M → Nat)
    (ws : List (WomanS M W)) : Prop :=
  ∀ (i : Nat) (wi : WomanS M W) (q : ManS M), ws[i]? = some wi →
    wi.currentMatch = some q →
    (wi.currentIsPerfect = true ∧ mD q.data wi.data = 0) ∨
    (Cover mt wD ws q.data q.prefs ∧ SortedP mD ws q.data q.prefs ∧
     ∀ k ∈ q.prefs, ∀ wk, ws[k]? = some wk → mD q.data wi.data ≤ mD q.data wk.data)

/-- Evolution of the women's array during the algorithm: the underlying data
is preserved and held partners only improve. -/
def EvolvesW (wD : W → M → Nat) (ws ws' : List (WomanS M W)) : Prop :=
  ∀ (j : Nat) (wj' : WomanS M W), ws'[j]? = some wj' →
    ∃ wj, ws[j]? = some wj ∧ wj'.data = wj.data ∧
      ∀ d, wHolds wD wj d → wHolds wD wj' d

theorem evolvesW_refl (wD : W → M → Nat) (ws : List (WomanS M W)) :
    EvolvesW wD ws ws :=
  fun _ wj' h => ⟨wj', h, rfl, fun _ hd => hd⟩

theorem evolvesW_trans {wD : W → M → Nat} {ws1 ws2 ws3 : List (WomanS M W)}
    (h12 : EvolvesW wD ws1 ws2) (h23 : EvolvesW wD ws2 ws3) :
    EvolvesW wD ws1 ws3 := by
  intro j wj3 h3
  obtain ⟨wj2, h2, hd23, hh23⟩ := h23 j wj3 h3
  obtain ⟨wj1, h1, hd12, hh12⟩ := h12 j wj2 h2
  exact ⟨wj1, h1, hd23.trans hd12, fun d hd => hh23 d (hh12 d hd)⟩

theorem cover_evolve {mt : Matchers M W} {wD : W → M → Nat}
    {ws ws' : List (WomanS M W)} {pd : M} {prefs : List Nat}
    (hev : EvolvesW wD ws ws') (hc : Cover mt wD ws pd prefs) :
    Cover mt wD ws' pd prefs := by
  intro j wj' hj hA hB
  obtain ⟨wj, hjo, hdata, hholds⟩ := hev j wj' hj
  rw [hdata] at hA hB
  rcases hc j wj hjo hA hB with hmem | hw
  · exact Or.inl hmem
  · right
    have hw' := hholds _ hw
    rwa [← hdata] at hw'

theorem sortedP_evolve {mD : M → W → Nat} {ws ws' : List (WomanS M W)}
    {pd : M} {prefs : List Nat}
    (hev : EvolvesW wD ws ws') (hs : SortedP mD ws pd prefs) :
    SortedP mD ws' pd prefs := by
  refine hs.imp ?_
  intro a b hab wa' wb' ha hb
  obtain ⟨wa, hao, hda, _⟩ := hev a wa' ha
  obtain ⟨wb, hbo, hdb, _⟩ := hev b wb' hb
  rw [hda, hdb]
  exact hab wa wb hao hbo

theorem lt_length_of_getElem? {α : Type} {l : List α} {i : Nat} {a : α}
    (h : l[i]? = some a) : i < l.length := by
  by_contra hge
  push_neg at hge
  rw [List.getElem?_eq_none hge] at h
  cases h

/-- Characterization of a successful proposal. -/
theorem prefersToCurrent_true (mt : Matchers M W) (w : WomanS M W) (m : M)
    (h : prefersToCurrent mt w m = true) :
    w.currentIsPerfect = false ∧ mt.wAdm w.data m = true ∧
      ∀ c, w.currentMatch = some c → mt.wCmp w.data c.data m = Ordering.gt := by
  unfold prefersToCurrent at h
  rcases hcm : w.currentMatch with _ | c <;> rw [hcm] at h <;>
    cases hP : w.currentIsPerfect <;> rw [hP] at h <;>
      cases hA : mt.wAdm w.data m <;> rw [hA] at h <;> simp_all [beq_iff_eq]
  have hchar : ∀ o : Ordering, (o == Ordering.gt) = true → o = Ordering.gt := by
    intro o ho
    cases o
    · exact absurd ho (by decide)
    · exact absurd ho (by decide)
    · rfl
  exact hchar _ h

/-- Characterization of a rejected proposal. -/
theorem prefersToCurrent_false (mt : Matchers M W) (w : WomanS M W) (m : M)
    (h : prefersToCurrent mt w m = false) :
    w.currentIsPerfect = true ∨ mt.wAdm w.data m = false ∨
      ∃ c, w.currentMatch = some c ∧ mt.wCmp w.data c.data m ≠ Ordering.gt := by
  unfold prefersToCurrent at h
  rcases hcm : w.currentMatch with _ | c <;> rw [hcm] at h <;>
    cases hP : w.currentIsPerfect <;> rw [hP] at h <;>
      cases hA : mt.wAdm w.data m <;> rw [hA] at h <;> simp_all [beq_iff_eq]
  have hchar : ∀ o : Ordering, (o == Ordering.gt) = false → o ≠ Ordering.gt := by
    intro o ho
    cases o
    · exact fun hh => Ordering.noConfusion hh
    · exact fun hh => Ordering.noConfusion hh
    · exact absurd ho (by decide)
  exact hchar _ h

theorem accept_evolvesW {mt : Matchers M W} {wD : W → M → Nat}
    (hwc : ∀ w m1 m2, mt.wCmp w m1 m2 = compare (wD w m1) (wD w m2))
    {ws : List (WomanS M W)} {i : Nat} {w : WomanS M W} {nm : ManS M}
    (hi : ws[i]? = some w) (hpref : prefersToCurrent mt w nm.data = true) :
    EvolvesW wD ws (ws.set i { w with currentMatch := some nm }) := by
  intro j wj' hj
  by_cases hij : i = j
  · subst hij
    rw [List.getElem?_set_self (lt_length_of_getElem? hi)] at hj
    injection hj with hj
    subst hj
    refine ⟨w, hi, rfl, ?_⟩
    intro d hd
    obtain ⟨c, hc, hcd⟩ := hd
    have hgt := (prefersToCurrent_true mt w nm.data hpref).2.2 c hc
    rw [hwc] at hgt
    rw [Nat.compare_eq_gt] at hgt
    refine ⟨nm, rfl, ?_⟩
    show wD w.data nm.data ≤ d
    omega
  · rw [List.getElem?_set_ne hij] at hj
    exact ⟨wj', hj, rfl, fun d hd => hd⟩

theorem accept_lockInv {wD : W → M → Nat} {ws : List (WomanS M W)}
    {i : Nat} {w : WomanS M W} {nm : ManS M}
    (hi : ws[i]? = some w) (hPf : w.currentIsPerfect = false)
    (hL : LockInv wD ws) :
    LockInv wD (ws.set i { w with currentMatch := some nm }) := by
  intro j wj' hj hP
  by_cases hij : i = j
  · subst hij
    rw [List.getElem?_set_self (lt_length_of_getElem? hi)] at hj
    injection hj with hj
    subst hj
    simp only at hP
    rw [hPf] at hP
    cases hP
  · rw [List.getElem?_set_ne hij] at hj
    exact hL j wj' hj hP

theorem accept_coupleInv {mt : Matchers M W} {mD : M → W → Nat} {wD : W → M → Nat}
    {ws : List (WomanS M W)} {i : Nat} {w : WomanS M W} {pd : M} {rest : List Nat}
    (hi : ws[i]? = some w)
    (hev : EvolvesW wD ws (ws.set i { w with currentMatch := some ⟨pd, rest⟩ }))
    (hC : CoupleInv mt mD wD ws)
    (hcov : Cover mt wD ws pd (i :: rest))
    (hsort : SortedP mD ws pd (i :: rest)) :
    CoupleInv mt mD wD (ws.set i { w with currentMatch := some ⟨pd, rest⟩ }) := by
  intro i' wi' q h1 h2
  by_cases hii : i = i'
  · subst hii
    rw [List.getElem?_set_self (lt_length_of_getElem? hi)] at h1
    injection h1 with h1
    subst h1
    simp only at h2
    injection h2 with h2
    subst h2
    right
    refine ⟨?_, sortedP_evolve hev (List.pairwise_cons.mp hsort).2, ?_⟩
    · intro j wj' hj hA hB
      by_cases hij : i = j
      · subst hij
        rw [List.getElem?_set_self (lt_length_of_getElem? hi)] at hj
        injection hj with hj
        subst hj
        exact Or.inr ⟨⟨pd, rest⟩, rfl, Nat.le_refl _⟩
      · rw [List.getElem?_set_ne hij] at hj
        rcases hcov j wj' hj hA hB with hmem | hw
        · rcases List.mem_cons.mp hmem with hji | hjr
          · exact absurd hji.symm hij
          · exact Or.inl hjr
        · exact Or.inr hw
    · intro k hk wk hwk
      obtain ⟨wk0, hk0, hdk, _⟩ := hev k wk hwk
      rw [hdk]
      exact (List.pairwise_cons.mp hsort).1 k hk w wk0 hi hk0
  · rw [List.getElem?_set_ne hii] at h1
    rcases hC i' wi' q h1 h2 with ⟨hP, h0⟩ | ⟨hc, hs, hr⟩
    · exact Or.inl ⟨hP, h0⟩
    · right
      refine ⟨cover_evolve hev hc, sortedP_evolve hev hs, ?_⟩
      intro k hk wk hwk
      obtain ⟨wk0, hk0, hdk, _⟩ := hev k wk hwk
      rw [hdk]
      exact hr k hk wk0 hk0

theorem perfect_evolvesW {wD : W → M → Nat} {ws : List (WomanS M W)}
    {i : Nat} {w : WomanS M W} {md : M}
    (hi : ws[i]? = some w) (hnone : w.currentMatch = none) :
    EvolvesW wD ws
      (ws.set i { w with currentIsPerfect := true, currentMatch := some ⟨md, []⟩ }) := by
  intro j wj' hj
  by_cases hij : i = j
  · subst hij
    rw [List.getElem?_set_self (lt_length_of_getElem? hi)] at hj
    injection hj with hj
    subst hj
    refine ⟨w, hi, rfl, ?_⟩
    intro d hd
    obtain ⟨c, hc, _⟩ := hd
    rw [hnone] at hc
    cases hc
  · rw [List.getElem?_set_ne hij] at hj
    exact ⟨wj', hj, rfl, fun d hd => hd⟩

theorem perfect_lockInv {wD : W → M → Nat} {ws : List (WomanS M W)}
    {i : Nat} {w : WomanS M W} {md : M}
    (hi : ws[i]? = some w) (h0 : wD w.data md = 0) (hL : LockInv wD ws) :
    LockInv wD
      (ws.set i { w with currentIsPerfect := true, currentMatch := some ⟨md, []⟩ }) := by
  intro j wj' hj hP
  by_cases hij : i = j
  · subst hij
    rw [List.getElem?_set_self (lt_length_of_getElem? hi)] at hj
    injection hj with hj
    subst hj
    exact ⟨⟨md, []⟩, rfl, h0⟩
  · rw [List.getElem?_set_ne hij] at hj
    exact hL j wj' hj hP

theorem perfect_coupleInv {mt : Matchers M W} {mD : M → W → Nat} {wD : W → M → Nat}
    {ws : List (WomanS M W)} {i : Nat} {w : WomanS M W} {md : M}
    (hi : ws[i]? = some w)
    (hev : EvolvesW wD ws
      (ws.set i { w with currentIsPerfect := true, currentMatch := some ⟨md, []⟩ }))
    (h0 : mD md w.data = 0)
    (hC : CoupleInv mt mD wD ws) :
    CoupleInv mt mD wD
      (ws.set i { w with currentIsPerfect := true, currentMatch := some ⟨md, []⟩ }) := by
  intro i' wi' q h1 h2
  by_cases hii : i = i'
  · subst hii
    rw [List.getElem?_set_self (lt_length_of_getElem? hi)] at h1
    injection h1 with h1
    subst h1
    simp only at h2
    injection h2 with h2
    subst h2
    exact Or.inl ⟨rfl, h0⟩
  · rw [List.getElem?_set_ne hii] at h1
    rcases hC i' wi' q h1 h2 with ⟨hP, hz⟩ | ⟨hc, hs, hr⟩
    · exact Or.inl ⟨hP, hz⟩
    · right
      refine ⟨cover_evolve hev hc, sortedP_evolve hev hs, ?_⟩
      intro k hk wk hwk
      obtain ⟨wk0, hk0, hdk, _⟩ := hev k wk hwk
      rw [hdk]
      exact hr k hk wk0 hk0

theorem mem_insertSorted {α : Type} {le : α → α → Bool} {x : α} :
    ∀ {l : List α} {z : α}, z ∈ insertSorted le x l ↔ z = x ∨ z ∈ l := by
  intro l
  induction l with
  | nil =>
    intro z
    simp [insertSorted]
  | cons y ys ih =>
    intro z
    simp only [insertSorted]
    by_cases hle : le x y = true
    · rw [if_pos hle]
      exact List.mem_cons
    · rw [if_neg hle]
      simp only [List.mem_cons, ih]
      tauto

theorem mem_sortByBool {α : Type} {le : α → α → Bool} {l : List α} {z : α} :
    z ∈ sortByBool le l ↔ z ∈ l := by
  induction l with
  | nil => simp [sortByBool]
  | cons a l ih =>
    simp only [sortByBool, List.foldr_cons] at *
    rw [mem_insertSorted]
    simp [ih]

theorem pairwise_insertSorted {α : Type} {le : α → α → Bool}
    (htot : ∀ a b, le a b = true ∨ le b a = true)
    (htrans : ∀ a b c, le a b = true → le b c = true → le a c = true)
    (x : α) : ∀ l, List.Pairwise (fun a b => le a b = true) l →
      List.Pairwise (fun a b => le a b = true) (insertSorted le x l) := by
  intro l
  induction l with
  | nil =>
    intro _
    simp [insertSorted]
  | cons y ys ih =>
    intro hp
    obtain ⟨hy, hys⟩ := List.pairwise_cons.mp hp
    simp only [insertSorted]
    by_cases hle : le x y = true
    · rw [if_pos hle]
      refine List.pairwise_cons.mpr ⟨?_, hp⟩
      intro z hz
      rcases List.mem_cons.mp hz with rfl | hz
      · exact hle
      · exact htrans x y z hle (hy z hz)
    · rw [if_neg hle]
      refine List.pairwise_cons.mpr ⟨?_, ih hys⟩
      intro z hz
      rcases mem_insertSorted.mp hz with h' | hz
      · rw [h']
        rcases htot x y with h | h
        · exact absurd h hle
        · exact h
      · exact hy z hz

theorem sortByBool_pairwise {α : Type} (le : α → α → Bool)
    (htot : ∀ a b, le a b = true ∨ le b a = true)
    (htrans : ∀ a b c, le a b = true → le b c = true → le a c = true)
    (l : List α) :
    List.Pairwise (fun a b => le a b = true) (sortByBool le l) := by
  induction l with
  | nil => simp [sortByBool]
  | cons a l ih =>
    simp only [sortByBool, List.foldr_cons] at *
    exact pairwise_insertSorted htot htrans a _ ih

theorem then_ne_gt (x y i j : Nat) :
    (((compare x y).then (compare i j)) ≠ Ordering.gt) ↔
      (x < y ∨ (x = y ∧ i ≤ j)) := by
  rcases h : compare x y with _ | _ | _
  · have hx := Nat.compare_eq_lt.mp h
    constructor
    · intro _
      exact Or.inl hx
    · intro _ hgt
      exact Ordering.noConfusion hgt
  · have hx := Nat.compare_eq_eq.mp h
    constructor
    · intro hne
      refine Or.inr ⟨hx, ?_⟩
      by_contra hij
      push_neg at hij
      exact hne (Nat.compare_eq_gt.mpr hij)
    · rintro (hlt | ⟨-, hij⟩)
      · intro _
        omega
      · intro hgt
        have hgt' : compare i j = Ordering.gt := hgt
        rw [Nat.compare_eq_gt] at hgt'
        omega
  · have hx := Nat.compare_eq_gt.mp h
    constructor
    · intro hne
      exact absurd rfl hne
    · rintro (hlt | ⟨heq, -⟩) <;> exfalso <;> omega

/-- Freshly computed preference lists cover the women: every woman
both-ways admissible to the proposer is either in the list or already holds
a partner she weakly prefers. -/
theorem computePreferenceList_cover {mt : Matchers M W} {wD : W → M → Nat}
    (hwc : ∀ w m1 m2, mt.wCmp w m1 m2 = compare (wD w m1) (wD w m2))
    (ws : List (WomanS M W)) (md : M) (hL : LockInv wD ws) :
    Cover mt wD ws md (computePreferenceList mt md ws) := by
  intro j wj hj hA hB
  by_cases hp : prefersToCurrent mt wj md = true
  · left
    simp only [computePreferenceList, List.mem_map]
    refine ⟨(j, wj), ?_, rfl⟩
    rw [mem_sortByBool, List.mem_filter]
    refine ⟨?_, hA⟩
    rw [List.mem_filter]
    exact ⟨List.mem_enum_iff_getElem?.mpr hj, hp⟩
  · right
    have hp' : prefersToCurrent mt wj md = false := by
      cases hval : prefersToCurrent mt wj md
      · rfl
      · exact absurd hval hp
    rcases prefersToCurrent_false mt wj md hp' with hP | hAdm | ⟨c, hc, hgt⟩
    · obtain ⟨q, hq, h0⟩ := hL j wj hj hP
      exact ⟨q, hq, by omega⟩
    · rw [hAdm] at hB
      cases hB
    · refine ⟨c, hc, ?_⟩
      rw [hwc, Ne, Nat.compare_eq_gt] at hgt
      omega

/-- Freshly computed preference lists are sorted by the proposer's distance,
most preferred first. -/
theorem computePreferenceList_sorted {mt : Matchers M W} {mD : M → W → Nat}
    (hmc : ∀ m w1 w2, mt.mCmp m w1 w2 = compare (mD m w1) (mD m w2))
    (ws : List (WomanS M W)) (md : M) :
    SortedP mD ws md (computePreferenceList mt md ws) := by
  unfold SortedP
  simp only [computePreferenceList]
  rw [List.pairwise_map]
  refine List.Pairwise.imp_of_mem ?_ (sortByBool_pairwise _ ?_ ?_ _)
  · intro a b ha hb hab wa wb hwa hwb
    have ha' : ws[a.1]? = some a.2 := by
      have hm := mem_sortByBool.mp ha
      rw [List.mem_filter] at hm
      have hm2 := hm.1
      rw [List.mem_filter] at hm2
      exact List.mem_enum_iff_getElem?.mp hm2.1
    have hb' : ws[b.1]? = some b.2 := by
      have hm := mem_sortByBool.mp hb
      rw [List.mem_filter] at hm
      have hm2 := hm.1
      rw [List.mem_filter] at hm2
      exact List.mem_enum_iff_getElem?.mp hm2.1
    rw [ha'] at hwa
    rw [hb'] at hwb
    injection hwa with hwa
    injection hwb with hwb
    subst hwa hwb
    rw [decide_eq_true_eq, hmc, then_ne_gt] at hab
    rcases hab with hlt | ⟨heq, -⟩
    · omega
    · omega
  · intro a b
    simp only [decide_eq_true_eq]
    rw [hmc, hmc, then_ne_gt, then_ne_gt]
    omega
  · intro a b c hab hbc
    rw [decide_eq_true_eq, hmc, then_ne_gt] at hab hbc
    rw [decide_eq_true_eq, hmc, then_ne_gt]
    omega

/-- A woman who turns a proposer down already holds a partner she weakly
prefers to him (provided she is admissible to him and locked women hold
distance-zero partners). -/
theorem rejected_holds {mt : Matchers M W} {wD : W → M → Nat}
    (hwc : ∀ w m1 m2, mt.wCmp w m1 m2 = compare (wD w m1) (wD w m2))
    {w : WomanS M W} {md : M}
    (hp : prefersToCurrent mt w md = false)
    (hL0 : w.currentIsPerfect = true → ∃ q, w.currentMatch = some q ∧ wD w.data q.data = 0)
    (hB : mt.wAdm w.data md = true) :
    wHolds wD w (wD w.data md) := by
  rcases prefersToCurrent_false mt w md hp with hP | hAdm | ⟨c, hc, hgt⟩
  · obtain ⟨q, hq, h0⟩ := hL0 hP
    exact ⟨q, hq, by omega⟩
  · rw [hAdm] at hB
    cases hB
  · refine ⟨c, hc, ?_⟩
    rw [hwc, Ne, Nat.compare_eq_gt] at hgt
    omega

/-- The proposal loop preserves the global invariants, only improves the
women's engagements, and hands back an exhausted man only when every woman
both-ways admissible to him holds a partner she weakly prefers. -/
theorem proposeLoopFuel_stable {mt : Matchers M W} {mD : M → W → Nat} {wD : W → M → Nat}
    (hwc : ∀ w m1 m2, mt.wCmp w m1 m2 = compare (wD w m1) (wD w m2)) :
    ∀ (fuel : Nat) (ws : List (WomanS M W)) (man : ManS M)
      (ws' : List (WomanS M W)) (out : Option (ManS M)),
      proposeLoopFuel mt fuel ws man = some (ws', out) →
      LockInv wD ws → CoupleInv mt mD wD ws →
      Cover mt wD ws man.data man.prefs → SortedP mD ws man.data man.prefs →
      EvolvesW wD ws ws' ∧ LockInv wD ws' ∧ CoupleInv mt mD wD ws' ∧
      ∀ p, out = some p → Cover mt wD ws' p.data [] := by
  intro fuel
  induction fuel with
  | zero =>
    intro ws man ws' out h
    cases h
  | succ f ih =>
    intro ws man ws' out h hL hC hcov hsort
    rcases hp : man.prefs with _ | ⟨i, rest⟩
    · rw [hp] at hcov
      simp only [proposeLoopFuel, hp] at h
      injection h with h
      injection h with h1 h2
      subst h1
      subst h2
      refine ⟨evolvesW_refl wD ws, hL, hC, ?_⟩
      intro p hpe
      injection hpe with hpe
      subst hpe
      exact hcov
    · rw [hp] at hcov hsort
      simp only [proposeLoopFuel, hp] at h
      rcases hw : ws[i]? with _ | w
      · rw [hw] at h
        refine ih ws ⟨man.data, rest⟩ ws' out h hL hC ?_ ?_
        · intro j wj hj hA hB
          rcases hcov j wj hj hA hB with hmem | hh
          · rcases List.mem_cons.mp hmem with h' | h'
            · rw [h', hw] at hj
              cases hj
            · exact Or.inl h'
          · exact Or.inr hh
        · exact (List.pairwise_cons.mp hsort).2
      · simp only [hw] at h
        by_cases hpref : prefersToCurrent mt w man.data = true
        · rw [if_pos hpref] at h
          have hPf : w.currentIsPerfect = false :=
            (prefersToCurrent_true mt w man.data hpref).1
          have hev : EvolvesW wD ws
              (ws.set i { w with currentMatch := some ⟨man.data, rest⟩ }) :=
            accept_evolvesW hwc hw hpref
          have hL2 : LockInv wD
              (ws.set i { w with currentMatch := some ⟨man.data, rest⟩ }) :=
            accept_lockInv hw hPf hL
          have hC2 : CoupleInv mt mD wD
              (ws.set i { w with currentMatch := some ⟨man.data, rest⟩ }) :=
            accept_coupleInv hw hev hC hcov hsort
          rcases hcm : w.currentMatch with _ | rejected
          · rw [hcm] at h
            injection h with h
            injection h with h1 h2
            subst h1
            subst h2
            refine ⟨hev, hL2, hC2, ?_⟩
            intro p hpe
            cases hpe
          · rw [hcm] at h
            have hcR := hC i w rejected hw hcm
            rcases hcR with ⟨hPc, _⟩ | ⟨hcovR, hsortR, _⟩
            · rw [hPc] at hPf
              cases hPf
            · obtain ⟨hev', hL', hC', hout⟩ := ih _ rejected ws' out h hL2 hC2
                (cover_evolve hev hcovR) (sortedP_evolve hev hsortR)
              exact ⟨evolvesW_trans hev hev', hL', hC', hout⟩
        · rw [if_neg hpref] at h
          have hpf : prefersToCurrent mt w man.data = false := by
            cases hv : prefersToCurrent mt w man.data
            · rfl
            · exact absurd hv hpref
          refine ih ws ⟨man.data, rest⟩ ws' out h hL hC ?_ ?_
          · intro j wj hj hA hB
            rcases hcov j wj hj hA hB with hmem | hh
            · rcases List.mem_cons.mp hmem with h' | h'
              · rw [h', hw] at hj
                injection hj with hj
                subst hj
                exact Or.inr (rejected_holds hwc hpf (hL i w hw) hB)
              · exact Or.inl h'
            · exact Or.inr hh
          · exact (List.pairwise_cons.mp hsort).2

/-- Processing one proposer preserves the invariants; a proposer is added to
`no_longer_engageables` only once every woman both-ways admissible to him
holds a partner she weakly prefers. -/
theorem processMan_stable {mt : Matchers M W} {mD : M → W → Nat} {wD : W → M → Nat}
    (hmc : ∀ m w1 w2, mt.mCmp m w1 w2 = compare (mD m w1) (mD m w2))
    (hwc : ∀ w m1 m2, mt.wCmp w m1 m2 = compare (wD w m1) (wD w m2))
    (hperf : ∀ m w, mt.mPerfect m w = true → mD m w = 0 ∧ wD w m = 0)
    (ws : List (WomanS M W)) (md : M) (ws' : List (WomanS M W)) (out : Option (ManS M))
    (h : processMan mt ws md = (ws', out))
    (hL : LockInv wD ws) (hC : CoupleInv mt mD wD ws) :
    EvolvesW wD ws ws' ∧ LockInv wD ws' ∧ CoupleInv mt mD wD ws' ∧
      ∀ p, out = some p → Cover mt wD ws' p.data [] := by
  unfold processMan at h
  rcases hf : ws.enum.find?
      (fun p => p.2.currentMatch.isNone && mt.mPerfect md p.2.data) with _ | ⟨t, w⟩
  · rw [hf] at h
    have hterm := proposeLoopFuel_computes mt ws
      ⟨md, computePreferenceList mt md ws⟩
      (heldMeasure ws ⟨md, computePreferenceList mt md ws⟩ + 1) (by omega)
    have hred : proposeLoop mt ws
        { data := md, prefs := computePreferenceList mt md ws } = (ws', out) := h
    rw [hred] at hterm
    exact proposeLoopFuel_stable hwc _ ws ⟨md, computePreferenceList mt md ws⟩
      ws' out hterm hL hC
      (computePreferenceList_cover hwc ws md hL)
      (computePreferenceList_sorted hmc ws md)
  · rw [hf] at h
    injection h with h1 h2
    subst h1
    subst h2
    have hmem := List.mem_of_find?_eq_some hf
    have hpred := List.find?_some hf
    have ht : ws[t]? = some w := List.mem_enum_iff_getElem?.mp hmem
    rw [Bool.and_eq_true] at hpred
    have hnone : w.currentMatch = none := by
      rcases hcm : w.currentMatch with _ | c
      · rfl
      · have := hpred.1
        rw [hcm] at this
        cases this
    obtain ⟨h0m, h0w⟩ := hperf md w.data hpred.2
    have hev : EvolvesW wD ws
        (ws.set t { w with currentIsPerfect := true, currentMatch := some ⟨md, []⟩ }) :=
      perfect_evolvesW ht hnone
    refine ⟨hev, perfect_lockInv ht h0w hL, perfect_coupleInv ht hev h0m hC, ?_⟩
    intro p hp
    cases hp

/-- The outer loop over the proposers preserves the invariants. -/
theorem smGo_stable {mt : Matchers M W} {mD : M → W → Nat} {wD : W → M → Nat}
    (hmc : ∀ m w1 w2, mt.mCmp m w1 w2 = compare (mD m w1) (mD m w2))
    (hwc : ∀ w m1 m2, mt.wCmp w m1 m2 = compare (wD w m1) (wD w m2))
    (hperf : ∀ m w, mt.mPerfect m w = true → mD m w = 0 ∧ wD w m = 0) :
    ∀ (menL : List M) (ws : List (WomanS M W)) (un : List (ManS M))
      (ws' : List (WomanS M W)) (un' : List (ManS M)),
      smGo mt menL ws un = (ws', un') →
      LockInv wD ws → CoupleInv mt mD wD ws →
      (∀ p ∈ un, Cover mt wD ws p.data []) →
      LockInv wD ws' ∧ CoupleInv mt mD wD ws' ∧
        ∀ p ∈ un', Cover mt wD ws' p.data [] := by
  intro menL
  induction menL with
  | nil =>
    intro ws un ws' un' h hL hC hU
    simp only [smGo] at h
    injection h with h1 h2
    subst h1
    subst h2
    exact ⟨hL, hC, hU⟩
  | cons m ms ih =>
    intro ws un ws' un' h hL hC hU
    simp only [smGo] at h
    rcases hpm : processMan mt ws m with ⟨ws1, out⟩
    simp only [hpm] at h
    obtain ⟨hev, hL1, hC1, hout⟩ := processMan_stable hmc hwc hperf ws m ws1 out hpm hL hC
    refine ih ws1 _ ws' un' h hL1 hC1 ?_
    rcases out with _ | p0
    · intro p hp
      exact cover_evolve hev (hU p hp)
    · intro p hp
      simp only [List.mem_append, List.mem_singleton] at hp
      rcases hp with hp | hp
      · exact cover_evolve hev (hU p hp)
      · subst hp
        exact hout p rfl

/-- C2 (confirmed): the matching computed by `stable_marriage` is stable.
With the two `cmp_3way` comparators given by distance functions `mD`/`wD`
(as the claim phrases it: smaller `cmp_3way` distance = preferred) and
perfect matches at distance zero, the final state admits no blocking pair:
no unmatched proposer is acceptable to a both-ways-admissible woman who
would strictly prefer him (every such woman holds a partner at distance no
larger than his), and no engaged proposer strictly prefers a both-ways
admissible woman to his own partner unless she already holds a partner she
weakly prefers to him. -/
theorem stable_marriage_stable (mt : Matchers M W) (men : List M) (women : List W)
    (mD : M → W → Nat) (wD : W → M → Nat)
    (hmc : ∀ m w1 w2, mt.mCmp m w1 w2 = compare (mD m w1) (mD m w2))
    (hwc : ∀ w m1 m2, mt.wCmp w m1 m2 = compare (wD w m1) (wD w m2))
    (hperf : ∀ m w, mt.mPerfect m w = true → mD m w = 0 ∧ wD w m = 0)
    (ws : List (WomanS M W)) (un : List (ManS M))
    (h : stableMarriageState mt men women = (ws, un)) :
    (∀ p ∈ un, ∀ (j : Nat) (wj : WomanS M W), ws[j]? = some wj →
      mt.mAdm p.data wj.data = true → mt.wAdm wj.data p.data = true →
      ∃ q, wj.currentMatch = some q ∧ wD wj.data q.data ≤ wD wj.data p.data) ∧
    (∀ (i : Nat) (wi : WomanS M W) (p : ManS M), ws[i]? = some wi →
      wi.currentMatch = some p →
      ∀ (j : Nat) (wj : WomanS M W), ws[j]? = some wj →
        mt.mAdm p.data wj.data = true → mt.wAdm wj.data p.data = true →
        mD p.data wj.data < mD p.data wi.data →
        ∃ q, wj.currentMatch = some q ∧ wD wj.data q.data ≤ wD wj.data p.data) := by
  unfold stableMarriageState at h
  have hL0 : LockInv wD (women.map (fun w => ⟨w, none, false⟩)) := by
    intro j wj hj hP
    rw [List.getElem?_map] at hj
    rcases hw0 : women[j]? with _ | w0
    · rw [hw0] at hj
      cases hj
    · rw [hw0] at hj
      injection hj with hj
      subst hj
      cases hP
  have hC0 : CoupleInv mt mD wD (women.map (fun w => ⟨w, none, false⟩)) := by
    intro i wi q hi hm
    rw [List.getElem?_map] at hi
    rcases hw0 : women[i]? with _ | w0
    · rw [hw0] at hi
      cases hi
    · rw [hw0] at hi
      injection hi with hi
      subst hi
      cases hm
  have hU0 : ∀ p ∈ ([] : List (ManS M)),
      Cover mt wD (women.map (fun w => ⟨w, none, false⟩)) p.data [] := by
    intro p hp
    cases hp
  obtain ⟨hL, hC, hU⟩ := smGo_stable hmc hwc hperf men
    (women.map (fun w => ⟨w, none, false⟩)) [] ws un h hL0 hC0 hU0
  constructor
  · intro p hp j wj hj hA hB
    rcases hU p hp j wj hj hA hB with hmem | hh
    · cases hmem
    · exact hh
  · intro i wi p hi hm j wj hj hA hB hlt
    rcases hC i wi p hi hm with ⟨_, h0⟩ | ⟨hcov, _, hrem⟩
    · omega
    · rcases hcov j wj hj hA hB with hmem | hh
      · have := hrem j hmem wj hj
        omega
      · exact hh

/-- Witness for `stable_marriage_stable` on a one-proposer instance with
identity distances. -/
theorem stable_marriage_stable_witness :
    stableMarriageState plainMatchers [0] [0]
      = ([⟨0, some ⟨0, []⟩, false⟩], []) ∧
    (∀ (i : Nat) (wi : WomanS Nat Nat) (p : ManS Nat),
      ([(⟨0, some ⟨0, []⟩, false⟩ : WomanS Nat Nat)] : List (WomanS Nat Nat))[i]?
        = some wi →
      wi.currentMatch = some p →
      ∀ (j : Nat) (wj : WomanS Nat Nat),
        ([(⟨0, some ⟨0, []⟩, false⟩ : WomanS Nat Nat)] : List (WomanS Nat Nat))[j]?
          = some wj →
        plainMatchers.mAdm p.data wj.data = true →
        plainMatchers.wAdm wj.data p.data = true →
        wj.data < wi.data →
        ∃ q, wj.currentMatch = some q ∧ q.data ≤ p.data) :=
  ⟨by decide,
   (stable_marriage_stable plainMatchers [0] [0] (fun _ w => w) (fun _ m => m)
     (fun _ _ _ => rfl) (fun _ _ _ => rfl)
     (fun _ _ hh => Bool.noConfusion hh)
     [⟨0, some ⟨0, []⟩, false⟩] [] (by decide)).2⟩

end Todiff
